import Mathlib

/-!
# guide-htmx: the SSE broadcaster and its streaming handler

A shallow embedding of `sse.go` and of the toast handlers of `main.go`.

* Go channels live in a heap `State.chans`; a channel value is its index in the heap,
  so `make` returns an index that no earlier channel has.
* `map[chan string]bool` is an association list with distinct keys.
* A runtime panic is `none`.
* `Subscribe` and `Unsubscribe` hold the write lock and are one atomic step each. `Send` holds
  the read lock: the `Send` under study is one step, and the iterations of other `Send`s that
  run at the same time are steps of their own (`Call.deliver`).
* `json.Marshal` is a parameter of the handlers that use it.
-/

namespace GuideHtmx

/-! ## Go runtime objects -/

/-- A channel value: the index of the channel in the heap. -/
abbrev ChanId := Nat

/-- A Go `chan string`: the pending values (the head is received next), the capacity given to
`make`, and whether `close` has been called. -/
structure Chan where
  buf : List String
  cap : Nat
  closed : Bool
deriving DecidableEq, Repr

/-- Go `m[k] = v` on a map kept as an association list. -/
def mapSet {κ ν : Type} [DecidableEq κ] (m : List (κ × ν)) (k : κ) (v : ν) : List (κ × ν) :=
  if m.any (fun e => decide (e.1 = k)) then
    m.map (fun e => if e.1 = k then (k, v) else e)
  else
    m ++ [(k, v)]

/-- Go `delete(m, k)`. -/
def mapDelete {κ ν : Type} [DecidableEq κ] (m : List (κ × ν)) (k : κ) : List (κ × ν) :=
  m.filter (fun e => decide (e.1 ≠ k))

/-- The keys of a map, in the order `range` visits them. -/
def mapKeys {κ ν : Type} (m : List (κ × ν)) : List κ :=
  m.map Prod.fst

/-- Go `m[k]` on a `map[string]string`: the zero value `""` when the key is missing. -/
def mapGet (m : List (String × String)) (k : String) : String :=
  match m.find? (fun e => decide (e.1 = k)) with
  | some e => e.2
  | none => ""

/-- The `Broadcaster` struct: `clients map[chan string]bool` (the mutex is the atomicity of the
methods below). -/
structure Broadcaster where
  clients : List (ChanId × Bool)
deriving DecidableEq, Repr

/-- The process state the broadcaster works on: the channels made so far and the global
`broadcast`. -/
structure State where
  chans : List Chan
  broadcast : Broadcaster
deriving DecidableEq, Repr

/-- The state at program start: `broadcast = &Broadcaster{clients: make(map[chan string]bool)}`. -/
def State.init : State :=
  { chans := [], broadcast := { clients := [] } }

/-- The registered set: the keys of `broadcast.clients`. -/
def State.registered (s : State) : List ChanId :=
  mapKeys s.broadcast.clients

/-- The pending messages of mailbox `ch`. -/
def State.pending (s : State) (ch : ChanId) : List String :=
  match s.chans[ch]? with
  | some c => c.buf
  | none => []

/-- Go `make(chan string, cap)`: a new open, empty channel, distinct from every earlier one. -/
def makeChan (s : State) (cap : Nat) : State × ChanId :=
  ({ s with chans := s.chans ++ [{ buf := [], cap := cap, closed := false }] }, s.chans.length)

/-- Go `close(ch)`; closing a nil or an already closed channel panics. -/
def closeChan (s : State) (ch : ChanId) : Option State :=
  match s.chans[ch]? with
  | none => none
  | some c =>
    if c.closed then none
    else some { s with chans := s.chans.set ch { c with closed := true } }

/-- Go `select { case ch <- msg: default: }`: a send on a closed channel panics, a send on a
channel with room appends, and otherwise (full, or nil) the default case runs. -/
def trySend (s : State) (ch : ChanId) (msg : String) : Option State :=
  match s.chans[ch]? with
  | none => some s
  | some c =>
    if c.closed then none
    else if c.buf.length < c.cap then
      some { s with chans := s.chans.set ch { c with buf := c.buf ++ [msg] } }
    else some s

/-- Go `<-ch` inside a `select`: `none` when the case is not ready (empty and open, or nil);
a closed and drained channel yields the zero value. -/
def chanRecv (s : State) (ch : ChanId) : Option (String × State) :=
  match s.chans[ch]? with
  | none => none
  | some c =>
    match c.buf with
    | m :: rest => some (m, { s with chans := s.chans.set ch { c with buf := rest } })
    | [] => if c.closed then some ("", s) else none

/-! ## `sse.go`: the Broadcaster -/

/-- `func (b *Broadcaster) Subscribe() chan string`. -/
def Broadcaster.Subscribe (s : State) : State × ChanId :=
  let r := makeChan s 10
  ({ r.1 with broadcast := { clients := mapSet r.1.broadcast.clients r.2 true } }, r.2)

/-- `func (b *Broadcaster) Unsubscribe(ch chan string)`: `delete(b.clients, ch)` then
`close(ch)`. -/
def Broadcaster.Unsubscribe (s : State) (ch : ChanId) : Option State :=
  closeChan { s with broadcast := { clients := mapDelete s.broadcast.clients ch } } ch

/-- The loop of `Send` over the channels in `order`. -/
def sendTo (msg : String) : State → List ChanId → Option State
  | s, [] => some s
  | s, ch :: rest =>
    match trySend s ch msg with
    | none => none
    | some s' => sendTo msg s' rest

/-- `func (b *Broadcaster) Send(msg string)`: `for ch := range b.clients { select ... }`.
Go leaves the order of `range` over a map open; `sendTo` takes the order as an argument and
`Send` uses the order of the association list. -/
def Broadcaster.Send (s : State) (msg : String) : Option State :=
  sendTo msg s s.registered

/-! ## Runs of the Broadcaster -/

/-- One step on the shared state: a Broadcaster call, a session receiving from its mailbox, or
one iteration of the loop of a `Send` that runs concurrently with other `Send`s and receives
(`Send` holds the read lock only, so its iterations interleave with theirs, but not with
`Subscribe` and `Unsubscribe`). -/
inductive Call where
  | subscribe
  | unsubscribe (ch : ChanId)
  | send (msg : String)
  | recv (ch : ChanId)
  | deliver (ch : ChanId) (msg : String)
deriving DecidableEq, Repr

/-- The effect of one step; `none` is a panic. A receive that is not ready changes nothing. -/
def call (s : State) : Call → Option State
  | .subscribe => some (Broadcaster.Subscribe s).1
  | .unsubscribe ch => Broadcaster.Unsubscribe s ch
  | .send msg => Broadcaster.Send s msg
  | .recv ch =>
    match chanRecv s ch with
    | some r => some r.2
    | none => some s
  | .deliver ch msg => trySend s ch msg

/-- What the callers respect: `Unsubscribe` and receive are applied to a currently registered
subscriber only; an iteration of `Send` is on a channel of the map. -/
def Call.allowed (s : State) : Call → Prop
  | .subscribe => True
  | .unsubscribe ch => ch ∈ s.registered
  | .send _ => True
  | .recv ch => ch ∈ s.registered
  | .deliver ch _ => ch ∈ s.registered

instance (s : State) (c : Call) : Decidable (c.allowed s) := by
  cases c <;> unfold Call.allowed <;> infer_instance

/-- Running a sequence of steps; `none` as soon as one panics. -/
def exec : State → List Call → Option State
  | s, [] => some s
  | s, c :: cs =>
    match call s c with
    | none => none
    | some s' => exec s' cs

/-- Every step of the sequence is allowed in the state it is taken in. -/
def Admissible : State → List Call → Prop
  | _, [] => True
  | s, c :: cs =>
    c.allowed s ∧
      match call s c with
      | none => True
      | some s' => Admissible s' cs

/-- Admissibility of a concrete run can be computed. -/
def Admissible.dec : (cs : List Call) → (s : State) → Decidable (Admissible s cs)
  | [], _ => isTrue trivial
  | c :: cs, s =>
    match hc : call s c with
    | none => decidable_of_iff (c.allowed s) (by simp [Admissible, hc])
    | some s' =>
      have := Admissible.dec cs s'
      decidable_of_iff (c.allowed s ∧ Admissible s' cs) (by simp [Admissible, hc])

instance (s : State) (cs : List Call) : Decidable (Admissible s cs) :=
  Admissible.dec cs s

/-- The states the program can be in: those an admissible run reaches from the start state. -/
def Reachable (s : State) : Prop :=
  ∃ cs : List Call, Admissible State.init cs ∧ exec State.init cs = some s

/-- The state invariant: registered channels are distinct, made and open; every channel has the
capacity `Subscribe` gives it and holds no more than that. -/
structure Inv (s : State) : Prop where
  nodup : s.registered.Nodup
  live : ∀ ch ∈ s.registered, ∃ c, s.chans[ch]? = some c ∧ c.closed = false
  bound : ∀ c ∈ s.chans, c.cap = 10 ∧ c.buf.length ≤ 10

/-- What a non-blocking send does to one open channel. -/
def offer (msg : String) (c : Chan) : Chan :=
  if c.buf.length < c.cap then { c with buf := c.buf ++ [msg] } else c

/-- Sending the messages of `ms` one after the other, with nothing in between. -/
def sendAll : State → List String → Option State
  | s, [] => some s
  | s, m :: ms =>
    match Broadcaster.Send s m with
    | none => none
    | some s' => sendAll s' ms

/-- The step is a `Subscribe`. -/
def Call.isSubscribe : Call → Bool
  | .subscribe => true
  | _ => false

/-- The step is an `Unsubscribe`. -/
def Call.isUnsubscribe : Call → Bool
  | .unsubscribe _ => true
  | _ => false

/-- The callers' discipline stated on the handles they hold: `held` are the channels returned by
an earlier `Subscribe` and not yet given to `Unsubscribe`; `Unsubscribe` and receive are applied
to a held channel only. -/
def WellUsed : State → List ChanId → List Call → Prop
  | _, _, [] => True
  | s, held, .subscribe :: cs =>
    WellUsed (Broadcaster.Subscribe s).1 (held ++ [(Broadcaster.Subscribe s).2]) cs
  | s, held, .unsubscribe ch :: cs =>
    ch ∈ held ∧
      match Broadcaster.Unsubscribe s ch with
      | none => True
      | some s' => WellUsed s' (held.erase ch) cs
  | s, held, .send msg :: cs =>
    match Broadcaster.Send s msg with
    | none => True
    | some s' => WellUsed s' held cs
  | s, held, .recv ch :: cs =>
    ch ∈ held ∧
      match call s (.recv ch) with
      | none => True
      | some s' => WellUsed s' held cs
  | s, held, .deliver ch msg :: cs =>
    ch ∈ held ∧
      match call s (.deliver ch msg) with
      | none => True
      | some s' => WellUsed s' held cs

/-- A state with two subscribers, each holding one message. -/
def demoTwo : State :=
  { chans := [{ buf := ["a"], cap := 10, closed := false },
              { buf := ["a"], cap := 10, closed := false }],
    broadcast := { clients := [(0, true), (1, true)] } }

/-- A state with two subscribers: mailbox 0 holds ten messages, mailbox 1 holds none. -/
def demoFull : State :=
  { chans := [{ buf := ["0", "1", "2", "3", "4", "5", "6", "7", "8", "9"], cap := 10,
                closed := false },
              { buf := [], cap := 10, closed := false }],
    broadcast := { clients := [(0, true), (1, true)] } }

/-- A state whose only subscriber has a full mailbox. -/
def demoAllFull : State :=
  { chans := [{ buf := ["0", "1", "2", "3", "4", "5", "6", "7", "8", "9"], cap := 10,
                closed := false }],
    broadcast := { clients := [(0, true)] } }

/-- Whether a concrete run respects the discipline can be computed. -/
def WellUsed.dec : (cs : List Call) → (s : State) → (held : List ChanId) →
    Decidable (WellUsed s held cs)
  | [], _, _ => isTrue trivial
  | .subscribe :: cs, s, held =>
    have := WellUsed.dec cs (Broadcaster.Subscribe s).1 (held ++ [(Broadcaster.Subscribe s).2])
    decidable_of_iff
      (WellUsed (Broadcaster.Subscribe s).1 (held ++ [(Broadcaster.Subscribe s).2]) cs)
      (by simp [WellUsed])
  | .unsubscribe ch :: cs, s, held =>
    match hu : Broadcaster.Unsubscribe s ch with
    | none => decidable_of_iff (ch ∈ held) (by simp [WellUsed, hu])
    | some s' =>
      have := WellUsed.dec cs s' (held.erase ch)
      decidable_of_iff (ch ∈ held ∧ WellUsed s' (held.erase ch) cs) (by simp [WellUsed, hu])
  | .send msg :: cs, s, held =>
    match hu : Broadcaster.Send s msg with
    | none => isTrue (by simp [WellUsed, hu])
    | some s' =>
      have := WellUsed.dec cs s' held
      decidable_of_iff (WellUsed s' held cs) (by simp [WellUsed, hu])
  | .recv ch :: cs, s, held =>
    match hu : call s (.recv ch) with
    | none => decidable_of_iff (ch ∈ held) (by simp [WellUsed, hu])
    | some s' =>
      have := WellUsed.dec cs s' held
      decidable_of_iff (ch ∈ held ∧ WellUsed s' held cs) (by simp [WellUsed, hu])
  | .deliver ch msg :: cs, s, held =>
    match hu : call s (.deliver ch msg) with
    | none => decidable_of_iff (ch ∈ held) (by simp [WellUsed, hu])
    | some s' =>
      have := WellUsed.dec cs s' held
      decidable_of_iff (ch ∈ held ∧ WellUsed s' held cs) (by simp [WellUsed, hu])

instance (s : State) (held : List ChanId) (cs : List Call) : Decidable (WellUsed s held cs) :=
  WellUsed.dec cs s held

/-- A state with two subscribers A = 0 and B = 1, both with empty mailboxes. -/
def demoAB : State :=
  { chans := [{ buf := [], cap := 10, closed := false },
              { buf := [], cap := 10, closed := false }],
    broadcast := { clients := [(0, true), (1, true)] } }

/-! ## `net/http`: the response writer -/

/-- An `http.ResponseWriter` as a handler sees it: whether it implements `http.Flusher`, the
header map, the status line once it is written, the chunks given to `Write` (oldest first) and
how many of them have been flushed to the client. -/
structure ResponseWriter where
  flusher : Bool
  header : List (String × String)
  status : Option Nat
  wrote : List String
  flushed : Nat
deriving DecidableEq, Repr

/-- The response writer of a new request. -/
def ResponseWriter.fresh (flusher : Bool) : ResponseWriter :=
  { flusher := flusher, header := [], status := none, wrote := [], flushed := 0 }

/-- The bytes written to the connection. -/
def ResponseWriter.body (w : ResponseWriter) : String :=
  String.join w.wrote

/-- `w.Header().Set(k, v)`. -/
def ResponseWriter.setHeader (w : ResponseWriter) (k v : String) : ResponseWriter :=
  { w with header := mapSet w.header k v }

/-- `w.WriteHeader(code)`: ignored once a status is written. -/
def ResponseWriter.writeHeader (w : ResponseWriter) (code : Nat) : ResponseWriter :=
  match w.status with
  | some _ => w
  | none => { w with status := some code }

/-- `w.Write(bytes)`, which is what `fmt.Fprintf(w, ...)` comes to: an implicit
`WriteHeader(200)` first. -/
def ResponseWriter.write (w : ResponseWriter) (bytes : String) : ResponseWriter :=
  { w.writeHeader 200 with wrote := w.wrote ++ [bytes] }

/-- `flusher.Flush()`: everything written so far goes to the client. -/
def ResponseWriter.flush (w : ResponseWriter) : ResponseWriter :=
  { w.writeHeader 200 with flushed := w.wrote.length }

/-- `http.Error(w, msg, code)` of the standard library. -/
def httpError (w : ResponseWriter) (msg : String) (code : Nat) : ResponseWriter :=
  let w1 : ResponseWriter := { w with header := mapDelete w.header "Content-Length" }
  let w2 := w1.setHeader "Content-Type" "text/plain; charset=utf-8"
  let w3 := w2.setHeader "X-Content-Type-Options" "nosniff"
  (w3.writeHeader code).write (msg ++ "\n")

/-- An `*http.Request`, as far as the handlers read it. -/
structure Request where
  method : String
  form : List (String × String)
deriving DecidableEq, Repr

/-- `r.FormValue(k)`: the first value of `k`, or `""`. -/
def Request.formValue (r : Request) (k : String) : String :=
  mapGet r.form k

/-! ## `sse.go`: the streaming handler -/

/-- The bytes of `fmt.Fprintf(w, "event: connected\ndata: {\"status\":\"connected\"}\n\n")`. -/
def connectedFrame : String :=
  "event: connected\ndata: \x7b\"status\":\"connected\"\x7d\n\n"

/-- The bytes of `fmt.Fprintf(w, "event: sse-toast\ndata: %s\n\n", msg)`. -/
def toastFrame (msg : String) : String :=
  "event: sse-toast\ndata: " ++ msg ++ "\n\n"

/-- What happens while `handleSSE` sits in its loop: another goroutine takes a step on the shared
state, or the `select` of the loop takes one of its two cases. -/
inductive Event where
  | env (c : Call)
  | msgReady
  | ctxDone
deriving DecidableEq, Repr

/-- Where the handler is: blocked in the `select` holding `clientChan`, or returned. -/
inductive Pc where
  | waiting (clientChan : ChanId)
  | returned
deriving DecidableEq, Repr

/-- The handler together with the shared state. `taken` and `log` are history variables: the
messages received from `clientChan` so far, and the handler's own calls on `broadcast`. -/
structure Session where
  state : State
  w : ResponseWriter
  pc : Pc
  taken : List String
  log : List Call
deriving DecidableEq, Repr

/-- The `for { select { ... } }` of `handleSSE`, run over the events in order. When
`r.Context().Done()` is chosen the handler returns and the deferred
`broadcast.Unsubscribe(clientChan)` runs; when the events end the handler is still blocked in
the `select`. A `msgReady` on a mailbox with nothing to receive leaves the `select` blocked. -/
def sseLoop (clientChan : ChanId) : Session → List Event → Option Session
  | σ, [] => some σ
  | σ, .env c :: es =>
    match call σ.state c with
    | none => none
    | some s' => sseLoop clientChan { σ with state := s' } es
  | σ, .ctxDone :: _ =>
    match Broadcaster.Unsubscribe σ.state clientChan with
    | none => none
    | some s' =>
      some { σ with state := s', pc := .returned, log := σ.log ++ [.unsubscribe clientChan] }
  | σ, .msgReady :: es =>
    match chanRecv σ.state clientChan with
    | none => sseLoop clientChan σ es
    | some r =>
      sseLoop clientChan
        { σ with state := r.2, w := (σ.w.write (toastFrame r.1)).flush,
                 taken := σ.taken ++ [r.1] } es

/-- `func handleSSE(w http.ResponseWriter, r *http.Request)`, started in state `s` and followed
through the events `es`; `none` is a panic. -/
def handleSSE (s : State) (w : ResponseWriter) (es : List Event) : Option Session :=
  let w1 := w.setHeader "Content-Type" "text/event-stream"
  let w2 := w1.setHeader "Cache-Control" "no-cache"
  let w3 := w2.setHeader "Connection" "keep-alive"
  let w4 := w3.setHeader "X-Accel-Buffering" "no"
  if w4.flusher = false then
    some { state := s, w := httpError w4 "SSE not supported" 500, pc := .returned,
           taken := [], log := [] }
  else
    let r := Broadcaster.Subscribe s
    let w5 := (w4.write connectedFrame).flush
    sseLoop r.2 { state := r.1, w := w5, pc := .waiting r.2, taken := [], log := [.subscribe] } es

/-- What the other goroutines respect while a handler owns the mailbox `own`: their steps are
allowed, and none of them unsubscribes or receives from `own` (the channel is a local variable
of its handler). -/
def EnvAdmissible (own : ChanId) : State → List Event → Prop
  | _, [] => True
  | s, .env c :: es =>
    c.allowed s ∧ c ≠ .unsubscribe own ∧ c ≠ .recv own ∧
      match call s c with
      | none => True
      | some s' => EnvAdmissible own s' es
  | _, .ctxDone :: _ => True
  | s, .msgReady :: es =>
    match chanRecv s own with
    | none => EnvAdmissible own s es
    | some r => EnvAdmissible own r.2 es

/-- Admissibility of a concrete schedule can be computed. -/
def EnvAdmissible.dec (own : ChanId) : (es : List Event) → (s : State) →
    Decidable (EnvAdmissible own s es)
  | [], _ => isTrue trivial
  | .ctxDone :: _, _ => isTrue trivial
  | .msgReady :: es, s =>
    match hr : chanRecv s own with
    | none =>
      have := EnvAdmissible.dec own es s
      decidable_of_iff (EnvAdmissible own s es) (by simp [EnvAdmissible, hr])
    | some r =>
      have := EnvAdmissible.dec own es r.2
      decidable_of_iff (EnvAdmissible own r.2 es) (by simp [EnvAdmissible, hr])
  | .env c :: es, s =>
    match hc : call s c with
    | none =>
      decidable_of_iff (c.allowed s ∧ c ≠ .unsubscribe own ∧ c ≠ .recv own)
        (by simp [EnvAdmissible, hc])
    | some s' =>
      have := EnvAdmissible.dec own es s'
      decidable_of_iff
        (c.allowed s ∧ c ≠ .unsubscribe own ∧ c ≠ .recv own ∧ EnvAdmissible own s' es)
        (by simp [EnvAdmissible, hc])

instance (own : ChanId) (s : State) (es : List Event) : Decidable (EnvAdmissible own s es) :=
  EnvAdmissible.dec own es s

/-! ## `main.go`: the toast handlers -/

/-- The encoder `json.Marshal` applied to a `map[string]string`, given as its entries. The
handlers are embedded over an arbitrary encoder. -/
abbrev Marshal := List (String × String) → String

/-- `func handleTriggerToast(w http.ResponseWriter, r *http.Request)`. -/
def handleTriggerToast (marshal : Marshal) (s : State) (w : ResponseWriter) (r : Request) :
    Option (State × ResponseWriter) :=
  if r.method ≠ "POST" then
    some (s, httpError w "Method not allowed" 405)
  else
    let toastType := r.formValue "type"
    let toastType := if toastType = "" then "success" else toastType
    let messages := [("success", "Operation completed successfully!"),
                     ("error", "Something went wrong!"),
                     ("info", "Here\x27s some information for you."),
                     ("warning", "Please be careful with this action.")]
    let msg := mapGet messages toastType
    let msg := if msg = "" then mapGet messages "info" else msg
    let toast := [("type", toastType), ("message", msg)]
    let data := marshal toast
    match Broadcaster.Send s data with
    | none => none
    | some s' => some (s', w.writeHeader 200)

/-- The `types` slice of `handleSpamToasts`. -/
def spamTypes : List String :=
  ["success", "error", "info", "warning", "success"]

/-- The `messages` slice of `handleSpamToasts`. -/
def spamMessages : List String :=
  ["First toast incoming!",
   "Oops, an error appeared!",
   "Here\x27s some info for you.",
   "Warning: toast spam detected!",
   "And we\x27re done!"]

/-- The body of the goroutine of `handleSpamToasts`, for the values of `i` in the list (the
sleep between two sends is not modelled). -/
def spamLoop (marshal : Marshal) : State → List Nat → Option State
  | s, [] => some s
  | s, i :: rest =>
    let toast := [("type", spamTypes.getD i ""), ("message", spamMessages.getD i "")]
    let data := marshal toast
    match Broadcaster.Send s data with
    | none => none
    | some s' => spamLoop marshal s' rest

/-- `func handleSpamToasts(w http.ResponseWriter, r *http.Request)`, with its goroutine
`for i := 0; i < 5; i++` run to the end. -/
def handleSpamToasts (marshal : Marshal) (s : State) (w : ResponseWriter) (r : Request) :
    Option (State × ResponseWriter) :=
  if r.method ≠ "POST" then
    some (s, httpError w "Method not allowed" 405)
  else
    match spamLoop marshal s (List.range 5) with
    | none => none
    | some s' => some (s', w.writeHeader 200)

/-! ## The event-stream format, as a reader interprets it

The rules of the event-stream format for the fields that decide the kind and the data of an
event: the stream is cut into lines at LF, CR or CRLF; an empty line dispatches the event; a
line starting with a colon is a comment; otherwise the line is a field name, up to the first
colon, and a value, after it, less one leading space; `event` sets the kind, `data` appends
the value and a line feed to the data; an event with empty data is not dispatched; the last
line feed of the data is removed; the kind defaults to `message`. -/

/-- The reader: the line being read, whether the last character was a CR, the data and kind
collected for the next event, and the events dispatched so far as (kind, data). -/
structure Decoder where
  line : List Char
  afterCR : Bool
  data : List Char
  event : List Char
  out : List (String × String)
deriving DecidableEq, Repr

/-- The reader before the first byte. -/
def Decoder.start : Decoder :=
  { line := [], afterCR := false, data := [], event := [], out := [] }

/-- Processing one field. -/
def Decoder.field (d : Decoder) (name value : List Char) : Decoder :=
  if name = ['e', 'v', 'e', 'n', 't'] then { d with event := value }
  else if name = ['d', 'a', 't', 'a'] then { d with data := d.data ++ value ++ ['\n'] }
  else d

/-- Dispatching at an empty line. -/
def Decoder.dispatch (d : Decoder) : Decoder :=
  if d.data = [] then { d with data := [], event := [] }
  else
    let payload := if d.data.getLast? = some '\n' then d.data.dropLast else d.data
    let kind := if d.event = [] then ['m', 'e', 's', 's', 'a', 'g', 'e'] else d.event
    { d with data := [], event := [], out := d.out ++ [(String.mk kind, String.mk payload)] }

/-- The end of a line. -/
def Decoder.endLine (d : Decoder) : Decoder :=
  let d0 := { d with line := [] }
  match d.line with
  | [] => d0.dispatch
  | ':' :: _ => d0
  | _ =>
    match d.line.dropWhile (fun c => decide (c ≠ ':')) with
    | [] => d0.field d.line []
    | _ :: ' ' :: value => d0.field (d.line.takeWhile (fun c => decide (c ≠ ':'))) value
    | _ :: value => d0.field (d.line.takeWhile (fun c => decide (c ≠ ':'))) value

/-- Reading one character. -/
def Decoder.feed (d : Decoder) (c : Char) : Decoder :=
  if c = '\n' then
    if d.afterCR then { d with afterCR := false } else d.endLine
  else if c = '\r' then { d.endLine with afterCR := true }
  else { d with line := d.line ++ [c], afterCR := false }

/-- The events a reader gets out of the bytes, as (kind, data). -/
def decodeEvents (bytes : String) : List (String × String) :=
  (bytes.data.foldl Decoder.feed Decoder.start).out

/-- How many characters of `l` are not line breaks. -/
def plainCount (l : List Char) : Nat :=
  (l.filter (fun c => decide (c ≠ '\n' ∧ c ≠ '\r'))).length

/-- While the reader has `rest` still to read: the first event it dispatches, if there is one
already, has data shorter than `bound`; if there is none yet, what it has collected and what is
left to collect stay within `bound`, and collected data ends with a line feed. -/
def FirstEventShort (bound : Nat) (d : Decoder) (rest : List Char) : Prop :=
  match d.out with
  | [] =>
    d.data.length + d.line.length + plainCount rest ≤ bound ∧
      (d.data ≠ [] → d.data.getLast? = some '\n')
  | e :: _ => e.2.length < bound

/-- A schedule in which the messages of `ms` are published and taken one by one. -/
def feedAndTake (ms : List String) : List Event :=
  ms.flatMap (fun m => [.env (.send m), .msgReady])

/-! ## Lemmas on maps -/

theorem mapKeys_mapDelete {ν : Type} (m : List (ChanId × ν)) (k : ChanId) :
    mapKeys (mapDelete m k) = (mapKeys m).filter (fun x => decide (x ≠ k)) := by
  induction m with
  | nil => rfl
  | cons e m ih =>
    by_cases h : e.1 = k
    · simp [mapDelete, mapKeys, List.filter_cons, h] at ih ⊢
      exact ih
    · simp [mapDelete, mapKeys, List.filter_cons, h] at ih ⊢
      exact ih

theorem mapKeys_mapSet_fresh {ν : Type} (m : List (ChanId × ν)) (k : ChanId) (v : ν)
    (h : k ∉ mapKeys m) : mapKeys (mapSet m k v) = mapKeys m ++ [k] := by
  have hany : m.any (fun e => decide (e.1 = k)) = false := by
    rw [List.any_eq_false]
    intro e he
    simp only [decide_eq_true_eq]
    intro hk
    exact h (by rw [← hk]; exact List.mem_map_of_mem Prod.fst he)
  simp [mapSet, hany, mapKeys]

/-! ## Lemmas on the channel primitives -/

theorem trySend_live (s : State) (ch : ChanId) (msg : String) (c : Chan)
    (hc : s.chans[ch]? = some c) (ho : c.closed = false) :
    ∃ s', trySend s ch msg = some s' ∧ s'.broadcast = s.broadcast ∧
      ∀ j, s'.chans[j]? = if j = ch then some (offer msg c) else s.chans[j]? := by
  have hlt : ch < s.chans.length := (List.getElem?_eq_some.mp hc).1
  by_cases hroom : c.buf.length < c.cap
  · refine ⟨{ s with chans := s.chans.set ch { c with buf := c.buf ++ [msg] } }, ?_, rfl, ?_⟩
    · simp [trySend, hc, ho, hroom]
    · intro j
      by_cases hj : j = ch
      · subst hj
        simp [offer, hroom, hlt]
      · have hne : ch ≠ j := fun h => hj h.symm
        simp [hj, hne]
  · refine ⟨s, ?_, rfl, ?_⟩
    · simp [trySend, hc, ho, hroom]
    · intro j
      by_cases hj : j = ch
      · subst hj
        simp [offer, hroom, hc]
      · simp [hj]

theorem sendTo_spec (msg : String) (l : List ChanId) :
    ∀ s : State, l.Nodup →
      (∀ ch ∈ l, ∃ c, s.chans[ch]? = some c ∧ c.closed = false) →
      ∃ s', sendTo msg s l = some s' ∧ s'.broadcast = s.broadcast ∧
        ∀ j, s'.chans[j]? = if j ∈ l then (s.chans[j]?).map (offer msg) else s.chans[j]? := by
  induction l with
  | nil =>
    intro s _ _
    exact ⟨s, rfl, rfl, fun j => by simp⟩
  | cons ch rest ih =>
    intro s hnd hlive
    obtain ⟨c, hc, ho⟩ := hlive ch (List.mem_cons_self _ _)
    obtain ⟨s1, h1, hb1, hg1⟩ := trySend_live s ch msg c hc ho
    have hnotin : ch ∉ rest := (List.nodup_cons.mp hnd).1
    have hlive1 : ∀ x ∈ rest, ∃ c, s1.chans[x]? = some c ∧ c.closed = false := by
      intro x hx
      have hxne : x ≠ ch := fun h => hnotin (h ▸ hx)
      rw [hg1 x, if_neg hxne]
      exact hlive x (List.mem_cons_of_mem _ hx)
    obtain ⟨s2, h2, hb2, hg2⟩ := ih s1 (List.nodup_cons.mp hnd).2 hlive1
    refine ⟨s2, by simp [sendTo, h1, h2], hb2.trans hb1, ?_⟩
    intro j
    rw [hg2 j, hg1 j]
    by_cases hj : j = ch
    · subst hj
      simp [hnotin, hc]
    · simp [hj]

theorem State.ext_chans (s t : State) (hb : s.broadcast = t.broadcast)
    (hg : ∀ j : Nat, s.chans[j]? = t.chans[j]?) : s = t := by
  cases s with
  | mk sc sb =>
    cases t with
    | mk tc tb =>
      simp only at hb hg
      have : sc = tc := List.ext_getElem? hg
      subst hb
      subst this
      rfl

/-- The order in which `Send` visits the registered channels does not matter. -/
theorem sendTo_perm (msg : String) (s : State) (l l' : List ChanId) (hp : l'.Perm l)
    (hnd : l.Nodup) (hlive : ∀ ch ∈ l, ∃ c, s.chans[ch]? = some c ∧ c.closed = false) :
    sendTo msg s l' = sendTo msg s l := by
  obtain ⟨s1, h1, hb1, hg1⟩ := sendTo_spec msg l s hnd hlive
  obtain ⟨s2, h2, hb2, hg2⟩ := sendTo_spec msg l' s (hp.nodup_iff.mpr hnd)
    (fun ch hch => hlive ch (hp.mem_iff.mp hch))
  rw [h1, h2]
  congr 1
  apply State.ext_chans
  · rw [hb1, hb2]
  · intro j
    rw [hg1 j, hg2 j]
    simp only [hp.mem_iff]

/-! ## The invariant holds in every reachable state -/

theorem Inv.init : Inv State.init :=
  { nodup := List.nodup_nil
    live := fun ch hch => by simp [State.init, State.registered, mapKeys] at hch
    bound := fun c hc => by simp [State.init] at hc }

theorem Inv.lt_length {s : State} (h : Inv s) {ch : ChanId} (hch : ch ∈ s.registered) :
    ch < s.chans.length := by
  obtain ⟨c, hc, _⟩ := h.live ch hch
  exact (List.getElem?_eq_some.mp hc).1

theorem Inv.fresh {s : State} (h : Inv s) : s.chans.length ∉ s.registered :=
  fun hmem => Nat.lt_irrefl _ (h.lt_length hmem)

theorem offer_bound (msg : String) (c : Chan) (hc : c.cap = 10 ∧ c.buf.length ≤ 10) :
    (offer msg c).cap = 10 ∧ (offer msg c).buf.length ≤ 10 := by
  unfold offer
  split
  · rename_i hlt
    simp only [List.length_append, List.length_singleton]
    exact ⟨hc.1, by omega⟩
  · exact hc

theorem registered_subscribe {s : State} (h : Inv s) :
    (Broadcaster.Subscribe s).1.registered = s.registered ++ [s.chans.length] := by
  have := mapKeys_mapSet_fresh s.broadcast.clients s.chans.length true h.fresh
  simpa [Broadcaster.Subscribe, makeChan, State.registered] using this

theorem chans_subscribe (s : State) :
    (Broadcaster.Subscribe s).1.chans
      = s.chans ++ [{ buf := [], cap := 10, closed := false }] := rfl

theorem Inv.subscribe {s : State} (h : Inv s) : Inv (Broadcaster.Subscribe s).1 := by
  refine ⟨?_, ?_, ?_⟩
  · rw [registered_subscribe h]
    refine List.Nodup.append h.nodup (List.nodup_singleton _) ?_
    intro x hx hx'
    rw [List.mem_singleton] at hx'
    exact h.fresh (hx' ▸ hx)
  · intro ch hch
    rw [registered_subscribe h, List.mem_append, List.mem_singleton] at hch
    rw [chans_subscribe]
    rcases hch with hch | hch
    · obtain ⟨c, hc, ho⟩ := h.live ch hch
      exact ⟨c, by rw [List.getElem?_append_left (h.lt_length hch)]; exact hc, ho⟩
    · subst hch
      exact ⟨_, List.getElem?_concat_length _ _, rfl⟩
  · intro c hc
    rw [chans_subscribe, List.mem_append, List.mem_singleton] at hc
    rcases hc with hc | hc
    · exact h.bound c hc
    · subst hc
      exact ⟨rfl, by simp⟩

theorem unsubscribe_spec {s : State} (h : Inv s) {ch : ChanId} (hch : ch ∈ s.registered) :
    ∃ c, s.chans[ch]? = some c ∧ c.closed = false ∧
      Broadcaster.Unsubscribe s ch
        = some { chans := s.chans.set ch { c with closed := true },
                 broadcast := { clients := mapDelete s.broadcast.clients ch } } := by
  obtain ⟨c, hc, ho⟩ := h.live ch hch
  exact ⟨c, hc, ho, by simp [Broadcaster.Unsubscribe, closeChan, hc, ho]⟩

theorem Inv.unsubscribe {s : State} (h : Inv s) {ch : ChanId} (hch : ch ∈ s.registered) :
    ∃ s', Broadcaster.Unsubscribe s ch = some s' ∧ Inv s' ∧
      s'.registered = s.registered.filter (fun x => decide (x ≠ ch)) := by
  obtain ⟨c, hc, ho, hu⟩ := unsubscribe_spec h hch
  have hreg : ({ chans := s.chans.set ch { c with closed := true },
                 broadcast := { clients := mapDelete s.broadcast.clients ch } } : State).registered
      = s.registered.filter (fun x => decide (x ≠ ch)) :=
    mapKeys_mapDelete s.broadcast.clients ch
  refine ⟨_, hu, ⟨?_, ?_, ?_⟩, hreg⟩
  · rw [hreg]
    exact h.nodup.filter _
  · intro x hx
    rw [hreg, List.mem_filter] at hx
    have hne : x ≠ ch := by simpa using hx.2
    obtain ⟨cx, hcx, hox⟩ := h.live x hx.1
    refine ⟨cx, ?_, hox⟩
    show (s.chans.set ch { c with closed := true })[x]? = some cx
    rw [List.getElem?_set_ne (fun e => hne e.symm)]
    exact hcx
  · intro c' hc'
    rcases List.mem_or_eq_of_mem_set hc' with hm | he
    · exact h.bound c' hm
    · subst he
      exact h.bound c (List.mem_iff_getElem?.mpr ⟨ch, hc⟩)

theorem send_spec {s : State} (h : Inv s) (msg : String) :
    ∃ s', Broadcaster.Send s msg = some s' ∧ s'.broadcast = s.broadcast ∧
      ∀ j, s'.chans[j]?
        = if j ∈ s.registered then (s.chans[j]?).map (offer msg) else s.chans[j]? :=
  sendTo_spec msg s.registered s h.nodup h.live

theorem Inv.of_offer {s s' : State} (h : Inv s) (msg : String) (l : List ChanId)
    (hb : s'.broadcast = s.broadcast)
    (hg : ∀ j, s'.chans[j]? = if j ∈ l then (s.chans[j]?).map (offer msg) else s.chans[j]?) :
    Inv s' := by
  have hreg : s'.registered = s.registered := by simp [State.registered, hb]
  refine ⟨hreg ▸ h.nodup, ?_, ?_⟩
  · intro ch hch
    rw [hreg] at hch
    obtain ⟨c, hc, ho⟩ := h.live ch hch
    rw [hg ch, hc]
    by_cases hl : ch ∈ l
    · refine ⟨offer msg c, by simp [hl], ?_⟩
      unfold offer
      split <;> exact ho
    · exact ⟨c, by simp [hl], ho⟩
  · intro c hc
    obtain ⟨j, hj⟩ := List.mem_iff_getElem?.mp hc
    rw [hg j] at hj
    by_cases hl : j ∈ l
    · rw [if_pos hl, Option.map_eq_some'] at hj
      obtain ⟨c0, hc0, hoff⟩ := hj
      rw [← hoff]
      exact offer_bound msg c0 (h.bound c0 (List.mem_iff_getElem?.mpr ⟨j, hc0⟩))
    · rw [if_neg hl] at hj
      exact h.bound c (List.mem_iff_getElem?.mpr ⟨j, hj⟩)

theorem Inv.send {s : State} (h : Inv s) (msg : String) :
    ∃ s', Broadcaster.Send s msg = some s' ∧ Inv s' ∧ s'.registered = s.registered := by
  obtain ⟨s', hs, hb, hg⟩ := send_spec h msg
  exact ⟨s', hs, h.of_offer msg s.registered hb hg, by simp [State.registered, hb]⟩

theorem deliver_spec {s : State} (h : Inv s) {ch : ChanId} (hch : ch ∈ s.registered)
    (msg : String) :
    ∃ s', trySend s ch msg = some s' ∧ Inv s' ∧ s'.registered = s.registered ∧
      ∀ j, j ≠ ch → s'.chans[j]? = s.chans[j]? := by
  obtain ⟨c, hc, ho⟩ := h.live ch hch
  obtain ⟨s', h1, hb, hg⟩ := trySend_live s ch msg c hc ho
  have hg' : ∀ j, s'.chans[j]?
      = if j ∈ [ch] then (s.chans[j]?).map (offer msg) else s.chans[j]? := by
    intro j
    rw [hg j]
    by_cases hj : j = ch
    · subst hj
      simp [hc]
    · simp [hj]
  refine ⟨s', h1, h.of_offer msg [ch] hb hg', by simp [State.registered, hb], ?_⟩
  intro j hj
  rw [hg j, if_neg hj]

theorem chanRecv_spec (s : State) (ch : ChanId) (m : String) (s' : State)
    (hr : chanRecv s ch = some (m, s')) :
    s'.broadcast = s.broadcast ∧
      ((∃ c rest, s.chans[ch]? = some c ∧ c.buf = m :: rest ∧
          s'.chans = s.chans.set ch { c with buf := rest }) ∨
        (∃ c, s.chans[ch]? = some c ∧ c.buf = [] ∧ c.closed = true ∧ m = "" ∧ s' = s)) := by
  unfold chanRecv at hr
  cases hc : s.chans[ch]? with
  | none => simp [hc] at hr
  | some c =>
    rw [hc] at hr
    cases hbuf : c.buf with
    | nil =>
      simp only [hbuf] at hr
      by_cases hcl : c.closed = true
      · simp only [hcl, if_true, Option.some.injEq, Prod.mk.injEq] at hr
        obtain ⟨hm, hs⟩ := hr
        subst hs
        exact ⟨rfl, Or.inr ⟨c, rfl, hbuf, hcl, hm.symm, rfl⟩⟩
      · simp [hcl] at hr
    | cons x rest =>
      simp only [hbuf, Option.some.injEq, Prod.mk.injEq] at hr
      obtain ⟨hm, hs⟩ := hr
      subst hs
      subst hm
      exact ⟨rfl, Or.inl ⟨c, rest, rfl, hbuf, rfl⟩⟩

theorem Inv.recv {s : State} (h : Inv s) (ch : ChanId) (m : String) (s' : State)
    (hr : chanRecv s ch = some (m, s')) : Inv s' ∧ s'.registered = s.registered := by
  obtain ⟨hb, hcase⟩ := chanRecv_spec s ch m s' hr
  have hreg : s'.registered = s.registered := by simp [State.registered, hb]
  rcases hcase with ⟨c, rest, hc, hbuf, hch⟩ | ⟨_, _, _, _, _, hs⟩
  · refine ⟨⟨hreg ▸ h.nodup, ?_, ?_⟩, hreg⟩
    · intro x hx
      rw [hreg] at hx
      obtain ⟨cx, hcx, hox⟩ := h.live x hx
      rw [hch]
      by_cases hxe : x = ch
      · subst hxe
        rw [hc] at hcx
        cases hcx
        exact ⟨_, List.getElem?_set_self (List.getElem?_eq_some.mp hc).1, hox⟩
      · exact ⟨cx, by rw [List.getElem?_set_ne (fun e => hxe e.symm)]; exact hcx, hox⟩
    · intro c' hc'
      rw [hch] at hc'
      rcases List.mem_or_eq_of_mem_set hc' with hm | he
      · exact h.bound c' hm
      · subst he
        have := h.bound c (List.mem_iff_getElem?.mpr ⟨ch, hc⟩)
        rw [hbuf] at this
        exact ⟨this.1, by simp only [List.length_cons] at this ⊢; omega⟩
  · subst hs
    exact ⟨h, rfl⟩

theorem call_total {s : State} (h : Inv s) (c : Call) (hc : c.allowed s) :
    ∃ s', call s c = some s' ∧ Inv s' := by
  cases c with
  | subscribe => exact ⟨_, rfl, h.subscribe⟩
  | unsubscribe ch =>
    obtain ⟨s', hs, hi, _⟩ := h.unsubscribe hc
    exact ⟨s', hs, hi⟩
  | send msg =>
    obtain ⟨s', hs, hi, _⟩ := h.send msg
    exact ⟨s', hs, hi⟩
  | recv ch =>
    cases hr : chanRecv s ch with
    | none => exact ⟨s, by simp [call, hr], h⟩
    | some r => exact ⟨r.2, by simp [call, hr], (h.recv ch r.1 r.2 hr).1⟩
  | deliver ch msg =>
    obtain ⟨s', hs, hi, _⟩ := deliver_spec h hc msg
    exact ⟨s', hs, hi⟩

theorem exec_total (cs : List Call) :
    ∀ s : State, Inv s → Admissible s cs → ∃ s', exec s cs = some s' ∧ Inv s' := by
  induction cs with
  | nil => exact fun s h _ => ⟨s, rfl, h⟩
  | cons c cs ih =>
    intro s h hadm
    obtain ⟨s1, h1, hi1⟩ := call_total h c hadm.1
    have hrest : Admissible s1 cs := by
      have := hadm.2
      rw [h1] at this
      exact this
    obtain ⟨s2, h2, hi2⟩ := ih s1 hi1 hrest
    exact ⟨s2, by simp [exec, h1, h2], hi2⟩

theorem Reachable.inv {s : State} (h : Reachable s) : Inv s := by
  obtain ⟨cs, hadm, hex⟩ := h
  obtain ⟨s', hs', hi⟩ := exec_total cs State.init Inv.init hadm
  rw [hex] at hs'
  cases hs'
  exact hi

/-! ## Fan-out -/

theorem sendTo_reachable {s : State} (hs : Reachable s) (m : String) (order : List ChanId)
    (horder : order.Perm s.registered) :
    ∃ s', sendTo m s order = some s' ∧ Broadcaster.Send s m = some s' ∧
      s'.broadcast = s.broadcast ∧
      ∀ j, s'.chans[j]?
        = if j ∈ s.registered then (s.chans[j]?).map (offer m) else s.chans[j]? := by
  obtain ⟨s', h1, hb, hg⟩ := send_spec hs.inv m
  refine ⟨s', ?_, h1, hb, hg⟩
  rw [sendTo_perm m s s.registered order horder hs.inv.nodup hs.inv.live]
  exact h1

theorem pending_offer_room (s s' : State) (m : String) (ch : ChanId) (c : Chan)
    (hc : s.chans[ch]? = some c) (hc10 : c.cap = 10)
    (hg : s'.chans[ch]? = (s.chans[ch]?).map (offer m))
    (hroom : (s.pending ch).length < 10) : s'.pending ch = s.pending ch ++ [m] := by
  have hp : s.pending ch = c.buf := by simp [State.pending, hc]
  rw [hp] at hroom ⊢
  simp [State.pending, hg, hc, offer, hc10, hroom]

theorem chan_offer_full (s s' : State) (m : String) (ch : ChanId) (c : Chan)
    (hc : s.chans[ch]? = some c) (hc10 : c.cap = 10)
    (hg : s'.chans[ch]? = (s.chans[ch]?).map (offer m))
    (hfull : (s.pending ch).length = 10) : s'.chans[ch]? = s.chans[ch]? := by
  have hp : s.pending ch = c.buf := by simp [State.pending, hc]
  rw [hp] at hfull
  simp [hg, hc, offer, hc10, hfull]

theorem demoTwo_reachable : Reachable demoTwo :=
  ⟨[.subscribe, .subscribe, .send "a"], by decide, by decide⟩

/-- C1: in a reachable state where no registered mailbox is at capacity, `Send(m)`, in whatever
order it visits the registered channels, leaves every registered mailbox with its previous
content followed by `m`, leaves the registered set as it was (N distinct mailboxes), and
leaves every channel that is not registered untouched. -/
theorem send_delivers_to_all (s : State) (hs : Reachable s) (m : String)
    (order : List ChanId) (horder : order.Perm s.registered)
    (hroom : ∀ ch ∈ s.registered, (s.pending ch).length < 10) :
    ∃ s', sendTo m s order = some s' ∧ Broadcaster.Send s m = some s' ∧
      s'.registered = s.registered ∧ s.registered.Nodup ∧
      (∀ ch ∈ s.registered, s'.pending ch = s.pending ch ++ [m]) ∧
      (∀ ch, ch ∉ s.registered → s'.chans[ch]? = s.chans[ch]?) := by
  obtain ⟨s', h1, h2, hb, hg⟩ := sendTo_reachable hs m order horder
  refine ⟨s', h1, h2, by simp [State.registered, hb], hs.inv.nodup, ?_, ?_⟩
  · intro ch hch
    obtain ⟨c, hc, _⟩ := hs.inv.live ch hch
    have hc10 := (hs.inv.bound c (List.mem_iff_getElem?.mpr ⟨ch, hc⟩)).1
    exact pending_offer_room s s' m ch c hc hc10 (by rw [hg ch, if_pos hch]) (hroom ch hch)
  · intro ch hch
    rw [hg ch, if_neg hch]

theorem send_delivers_to_all_witness :
    Reachable demoTwo ∧ [1, 0].Perm demoTwo.registered ∧
      (∀ ch ∈ demoTwo.registered, (demoTwo.pending ch).length < 10) ∧
      ∃ s', sendTo "b" demoTwo [1, 0] = some s' ∧ Broadcaster.Send demoTwo "b" = some s' ∧
        s'.registered = demoTwo.registered ∧ demoTwo.registered.Nodup ∧
        (∀ ch ∈ demoTwo.registered, s'.pending ch = demoTwo.pending ch ++ ["b"]) ∧
        (∀ ch, ch ∉ demoTwo.registered → s'.chans[ch]? = demoTwo.chans[ch]?) :=
  ⟨demoTwo_reachable, by decide, by decide,
    send_delivers_to_all demoTwo demoTwo_reachable "b" [1, 0] (by decide) (by decide)⟩

theorem demoFull_reachable : Reachable demoFull :=
  ⟨[.subscribe, .send "0", .send "1", .send "2", .send "3", .send "4", .send "5", .send "6",
    .send "7", .send "8", .send "9", .subscribe], by decide, by decide⟩

/-- C2: in a reachable state `Send(m)`, in whatever order it visits the registered channels,
leaves every registered mailbox that holds 10 messages exactly as it was, and appends `m` to
every registered mailbox that holds fewer than 10. -/
theorem send_drops_on_full (s : State) (hs : Reachable s) (m : String)
    (order : List ChanId) (horder : order.Perm s.registered) :
    ∃ s', sendTo m s order = some s' ∧ Broadcaster.Send s m = some s' ∧
      (∀ ch ∈ s.registered, (s.pending ch).length = 10 →
        s'.chans[ch]? = s.chans[ch]? ∧ s'.pending ch = s.pending ch) ∧
      (∀ ch ∈ s.registered, (s.pending ch).length < 10 →
        s'.pending ch = s.pending ch ++ [m]) := by
  obtain ⟨s', h1, h2, _, hg⟩ := sendTo_reachable hs m order horder
  refine ⟨s', h1, h2, ?_, ?_⟩
  · intro ch hch hfull
    obtain ⟨c, hc, _⟩ := hs.inv.live ch hch
    have hc10 := (hs.inv.bound c (List.mem_iff_getElem?.mpr ⟨ch, hc⟩)).1
    have := chan_offer_full s s' m ch c hc hc10 (by rw [hg ch, if_pos hch]) hfull
    exact ⟨this, by simp [State.pending, this]⟩
  · intro ch hch hroom
    obtain ⟨c, hc, _⟩ := hs.inv.live ch hch
    have hc10 := (hs.inv.bound c (List.mem_iff_getElem?.mpr ⟨ch, hc⟩)).1
    exact pending_offer_room s s' m ch c hc hc10 (by rw [hg ch, if_pos hch]) hroom

theorem send_drops_on_full_witness :
    Reachable demoFull ∧ [1, 0].Perm demoFull.registered ∧
      ∃ s', sendTo "x" demoFull [1, 0] = some s' ∧ Broadcaster.Send demoFull "x" = some s' ∧
        (∀ ch ∈ demoFull.registered, (demoFull.pending ch).length = 10 →
          s'.chans[ch]? = demoFull.chans[ch]? ∧ s'.pending ch = demoFull.pending ch) ∧
        (∀ ch ∈ demoFull.registered, (demoFull.pending ch).length < 10 →
          s'.pending ch = demoFull.pending ch ++ ["x"]) :=
  ⟨demoFull_reachable, by decide,
    send_drops_on_full demoFull demoFull_reachable "x" [1, 0] (by decide)⟩

/-- C3: in every reachable state every registered mailbox is an open channel, and `Send(m)`,
for every message and every visiting order, returns without a panic and leaves the registered
set as it was; when every registered mailbox is full it returns with the whole state
unchanged, so the only effect of a full mailbox is the drop. -/
theorem send_never_fails (s : State) (hs : Reachable s) (m : String)
    (order : List ChanId) (horder : order.Perm s.registered) :
    (∀ ch ∈ s.registered, ∃ c, s.chans[ch]? = some c ∧ c.closed = false) ∧
      (∃ s', sendTo m s order = some s' ∧ Broadcaster.Send s m = some s' ∧
        s'.registered = s.registered) ∧
      ((∀ ch ∈ s.registered, (s.pending ch).length = 10) →
        sendTo m s order = some s ∧ Broadcaster.Send s m = some s) := by
  obtain ⟨s', h1, h2, hb, hg⟩ := sendTo_reachable hs m order horder
  refine ⟨hs.inv.live, ⟨s', h1, h2, by simp [State.registered, hb]⟩, ?_⟩
  intro hfull
  have hss : s' = s := by
    apply State.ext_chans _ _ hb
    intro j
    by_cases hj : j ∈ s.registered
    · obtain ⟨c, hc, _⟩ := hs.inv.live j hj
      have hc10 := (hs.inv.bound c (List.mem_iff_getElem?.mpr ⟨j, hc⟩)).1
      exact chan_offer_full s s' m j c hc hc10 (by rw [hg j, if_pos hj]) (hfull j hj)
    · rw [hg j, if_neg hj]
  rw [hss] at h1 h2
  exact ⟨h1, h2⟩

theorem send_never_fails_witness :
    Reachable demoAllFull ∧ [0].Perm demoAllFull.registered ∧
      (∀ ch ∈ demoAllFull.registered, ∃ c, demoAllFull.chans[ch]? = some c ∧ c.closed = false) ∧
      (∃ s', sendTo "x" demoAllFull [0] = some s' ∧ Broadcaster.Send demoAllFull "x" = some s' ∧
        s'.registered = demoAllFull.registered) ∧
      sendTo "x" demoAllFull [0] = some demoAllFull ∧
      Broadcaster.Send demoAllFull "x" = some demoAllFull :=
  have hreach : Reachable demoAllFull :=
    ⟨[.subscribe, .send "0", .send "1", .send "2", .send "3", .send "4", .send "5", .send "6",
      .send "7", .send "8", .send "9"], by decide, by decide⟩
  have h := send_never_fails demoAllFull hreach "x" [0] (by decide)
  ⟨hreach, by decide, h.1, h.2.1, h.2.2 (by decide)⟩

/-! ## The size of the registered set -/

theorem erase_eq_filter_ne (l : List ChanId) (hnd : l.Nodup) (ch : ChanId) :
    l.erase ch = l.filter (fun x => decide (x ≠ ch)) := by
  rw [List.Nodup.erase_eq_filter hnd ch]
  congr 1
  funext x
  by_cases h : x = ch <;> simp [h]

theorem wellUsed_run (cs : List Call) :
    ∀ s : State, Inv s → WellUsed s s.registered cs →
      ∃ s', exec s cs = some s' ∧ Inv s' ∧
        s'.registered.length + cs.countP Call.isUnsubscribe
          = s.registered.length + cs.countP Call.isSubscribe := by
  induction cs with
  | nil => exact fun s h _ => ⟨s, rfl, h, rfl⟩
  | cons c cs ih =>
    intro s h hw
    cases c with
    | subscribe =>
      have hw' : WellUsed (Broadcaster.Subscribe s).1 (Broadcaster.Subscribe s).1.registered cs := by
        rw [registered_subscribe h]
        exact hw
      obtain ⟨s', he, hi, hcount⟩ := ih _ h.subscribe hw'
      refine ⟨s', by simp [exec, call, he], hi, ?_⟩
      rw [registered_subscribe h, List.length_append, List.length_singleton] at hcount
      simp only [List.countP_cons, Call.isSubscribe, Call.isUnsubscribe] at hcount ⊢
      simp only [if_true, Bool.false_eq_true, if_false] at hcount ⊢
      omega
    | unsubscribe ch =>
      obtain ⟨hmem, hrest⟩ := hw
      obtain ⟨s1, h1, hi1, hreg1⟩ := h.unsubscribe hmem
      rw [h1] at hrest
      have hw' : WellUsed s1 s1.registered cs := by
        rw [hreg1, ← erase_eq_filter_ne _ h.nodup ch]
        exact hrest
      obtain ⟨s', he, hi, hcount⟩ := ih s1 hi1 hw'
      refine ⟨s', by simp [exec, call, h1, he], hi, ?_⟩
      have hlen : s1.registered.length + 1 = s.registered.length := by
        rw [hreg1, ← erase_eq_filter_ne _ h.nodup ch, List.length_erase_of_mem hmem]
        have := List.length_pos_of_mem hmem
        omega
      simp only [List.countP_cons, Call.isSubscribe, Call.isUnsubscribe] at hcount ⊢
      simp only [if_true, Bool.false_eq_true, if_false] at hcount ⊢
      omega
    | send msg =>
      obtain ⟨s1, h1, hi1, hreg1⟩ := h.send msg
      have hw' : WellUsed s1 s1.registered cs := by
        have := hw
        simp only [WellUsed, h1] at this
        rw [hreg1]
        exact this
      obtain ⟨s', he, hi, hcount⟩ := ih s1 hi1 hw'
      refine ⟨s', by simp [exec, call, h1, he], hi, ?_⟩
      rw [hreg1] at hcount
      simp only [List.countP_cons, Call.isSubscribe, Call.isUnsubscribe] at hcount ⊢
      simp only [Bool.false_eq_true, if_false] at hcount ⊢
      omega
    | recv ch =>
      obtain ⟨hmem, hrest⟩ := hw
      obtain ⟨s1, h1, hi1⟩ := call_total h (.recv ch) hmem
      have hreg1 : s1.registered = s.registered := by
        cases hr : chanRecv s ch with
        | none =>
          simp only [call, hr, Option.some.injEq] at h1
          rw [← h1]
        | some r =>
          simp only [call, hr, Option.some.injEq] at h1
          rw [← h1]
          exact (h.recv ch r.1 r.2 hr).2
      rw [h1] at hrest
      have hw' : WellUsed s1 s1.registered cs := by
        rw [hreg1]
        exact hrest
      obtain ⟨s', he, hi, hcount⟩ := ih s1 hi1 hw'
      refine ⟨s', by simp [exec, h1, he], hi, ?_⟩
      rw [hreg1] at hcount
      simp only [List.countP_cons, Call.isSubscribe, Call.isUnsubscribe] at hcount ⊢
      simp only [Bool.false_eq_true, if_false] at hcount ⊢
      omega
    | deliver ch msg =>
      obtain ⟨hmem, hrest⟩ := hw
      obtain ⟨s1, h1, hi1, hreg1, _⟩ := deliver_spec h hmem msg
      have hcall : call s (.deliver ch msg) = some s1 := h1
      rw [hcall] at hrest
      have hw' : WellUsed s1 s1.registered cs := by
        rw [hreg1]
        exact hrest
      obtain ⟨s', he, hi, hcount⟩ := ih s1 hi1 hw'
      refine ⟨s', by simp [exec, hcall, he], hi, ?_⟩
      rw [hreg1] at hcount
      simp only [List.countP_cons, Call.isSubscribe, Call.isUnsubscribe] at hcount ⊢
      simp only [Bool.false_eq_true, if_false] at hcount ⊢
      omega

/-- C4: a sequence of calls from the empty registry in which every `Unsubscribe` is applied to
a channel returned by an earlier `Subscribe` and not yet unsubscribed runs without a panic, and
afterwards the registered set has (number of `Subscribe`) minus (number of `Unsubscribe`)
entries, holds no channel twice, and does not hold the channel the next `Subscribe` returns. -/
theorem registered_size (cs : List Call) (hcs : WellUsed State.init [] cs) :
    ∃ s, exec State.init cs = some s ∧
      s.registered.length = cs.countP Call.isSubscribe - cs.countP Call.isUnsubscribe ∧
      cs.countP Call.isUnsubscribe ≤ cs.countP Call.isSubscribe ∧
      s.registered.Nodup ∧
      (Broadcaster.Subscribe s).2 ∉ s.registered := by
  obtain ⟨s, he, hi, hcount⟩ := wellUsed_run cs State.init Inv.init hcs
  have h0 : State.init.registered.length = 0 := rfl
  rw [h0] at hcount
  exact ⟨s, he, by omega, by omega, hi.nodup, hi.fresh⟩

theorem registered_size_witness :
    WellUsed State.init []
        [.subscribe, .subscribe, .unsubscribe 0, .subscribe, .send "a", .unsubscribe 2] ∧
      ∃ s, exec State.init
            [.subscribe, .subscribe, .unsubscribe 0, .subscribe, .send "a", .unsubscribe 2]
            = some s ∧
        s.registered.length = 3 - 2 ∧ 2 ≤ 3 ∧ s.registered.Nodup ∧
        (Broadcaster.Subscribe s).2 ∉ s.registered :=
  ⟨by decide,
    registered_size
      [.subscribe, .subscribe, .unsubscribe 0, .subscribe, .send "a", .unsubscribe 2]
      (by decide)⟩

/-! ## After `Unsubscribe` -/

theorem call_keeps_disposed {s : State} (h : Inv s) (c : Call) (hc : c.allowed s)
    {ch : ChanId} (hout : ch ∉ s.registered) (hlt : ch < s.chans.length) :
    ∃ s', call s c = some s' ∧ Inv s' ∧ ch ∉ s'.registered ∧ s'.chans[ch]? = s.chans[ch]? ∧
      ch < s'.chans.length := by
  have key : ∃ s', call s c = some s' ∧ Inv s' ∧ ch ∉ s'.registered ∧
      s'.chans[ch]? = s.chans[ch]? := by
    cases c with
    | subscribe =>
      refine ⟨_, rfl, h.subscribe, ?_, ?_⟩
      · rw [registered_subscribe h, List.mem_append, List.mem_singleton]
        rintro (hm | he)
        · exact hout hm
        · exact Nat.lt_irrefl _ (he ▸ hlt)
      · rw [chans_subscribe, List.getElem?_append_left hlt]
    | unsubscribe x =>
      obtain ⟨c0, _, _, hu⟩ := unsubscribe_spec h hc
      obtain ⟨s', hs', hi, hreg⟩ := h.unsubscribe hc
      have hne : x ≠ ch := fun e => hout (e ▸ hc)
      refine ⟨s', hs', hi, ?_, ?_⟩
      · rw [hreg, List.mem_filter]
        exact fun hm => hout hm.1
      · rw [hu] at hs'
        cases hs'
        exact List.getElem?_set_ne hne
    | send msg =>
      obtain ⟨s', hs', hb, hg⟩ := send_spec h msg
      refine ⟨s', hs', h.of_offer msg s.registered hb hg, ?_, ?_⟩
      · simpa [State.registered, hb] using hout
      · rw [hg ch, if_neg hout]
    | recv x =>
      have hne : x ≠ ch := fun e => hout (e ▸ hc)
      cases hr : chanRecv s x with
      | none => exact ⟨s, by simp [call, hr], h, hout, rfl⟩
      | some r =>
        obtain ⟨hi, hreg⟩ := h.recv x r.1 r.2 hr
        refine ⟨r.2, by simp [call, hr], hi, by rw [hreg]; exact hout, ?_⟩
        obtain ⟨_, hcase⟩ := chanRecv_spec s x r.1 r.2 hr
        rcases hcase with ⟨c0, rest, _, _, hch⟩ | ⟨_, _, _, _, _, hs⟩
        · rw [hch]
          exact List.getElem?_set_ne hne
        · rw [hs]
    | deliver x msg =>
      have hne : ch ≠ x := fun e => hout (e ▸ hc)
      obtain ⟨s', hs', hi, hreg, hg⟩ := deliver_spec h hc msg
      exact ⟨s', hs', hi, by rw [hreg]; exact hout, hg ch hne⟩
  obtain ⟨s', h1, h2, h3, h4⟩ := key
  refine ⟨s', h1, h2, h3, h4, ?_⟩
  have hc0 : s.chans[ch]? = some (s.chans[ch]) := List.getElem?_eq_getElem hlt
  rw [hc0] at h4
  exact (List.getElem?_eq_some.mp h4).1

theorem exec_keeps_disposed (ch : ChanId) (cs : List Call) :
    ∀ s : State, Inv s → ch ∉ s.registered → ch < s.chans.length → Admissible s cs →
      ∃ s', exec s cs = some s' ∧ Inv s' ∧ ch ∉ s'.registered ∧
        s'.chans[ch]? = s.chans[ch]? := by
  induction cs with
  | nil => exact fun s h hout _ _ => ⟨s, rfl, h, hout, rfl⟩
  | cons c cs ih =>
    intro s h hout hlt hadm
    obtain ⟨s1, h1, hi1, hout1, hg1, hlt1⟩ := call_keeps_disposed h c hadm.1 hout hlt
    have hrest : Admissible s1 cs := by
      have := hadm.2
      rw [h1] at this
      exact this
    obtain ⟨s2, h2, hi2, hout2, hg2⟩ := ih s1 hi1 hout1 hlt1 hrest
    exact ⟨s2, by simp [exec, h1, h2], hi2, hout2, hg2.trans hg1⟩

theorem subscribe_then_unsubscribe {s : State} (h : Inv s) :
    ∃ s3, Broadcaster.Unsubscribe (Broadcaster.Subscribe s).1 (Broadcaster.Subscribe s).2
        = some s3 ∧ s3.registered = s.registered := by
  have hmem : (Broadcaster.Subscribe s).2 ∈ (Broadcaster.Subscribe s).1.registered := by
    rw [registered_subscribe h]
    exact List.mem_append_right _ (List.mem_singleton_self _)
  obtain ⟨s3, h3, _, hreg⟩ := h.subscribe.unsubscribe hmem
  refine ⟨s3, h3, ?_⟩
  rw [hreg, registered_subscribe h, List.filter_append]
  have hself : s.registered.filter (fun x => decide (x ≠ (Broadcaster.Subscribe s).2))
      = s.registered := by
    rw [List.filter_eq_self]
    intro x hx
    have : x ≠ s.chans.length := fun e => h.fresh (e ▸ hx)
    simpa [Broadcaster.Subscribe, makeChan] using this
  rw [hself]
  simp [Broadcaster.Subscribe, makeChan]

/-- C5: in a reachable state, `Unsubscribe(ch)` of a registered subscriber returns with `ch`
out of the registered set; every admissible run after it (any `Subscribe`, any `Send` or
single iteration of a `Send`, and `Unsubscribe` or receive of registered subscribers) goes
through without a panic, keeps `ch` out of the registered set and leaves the channel `ch` as
`Unsubscribe` left it, with the content it had before. And `Subscribe` followed by `Unsubscribe` of the returned channel gives
back the registered set there was before. -/
theorem unsubscribe_disposes (s : State) (hs : Reachable s) (ch : ChanId)
    (hch : ch ∈ s.registered) :
    ∃ s1, Broadcaster.Unsubscribe s ch = some s1 ∧ ch ∉ s1.registered ∧
      (∀ cs, Admissible s1 cs →
        ∃ s2, exec s1 cs = some s2 ∧ ch ∉ s2.registered ∧
          s2.chans[ch]? = s1.chans[ch]? ∧ s2.pending ch = s.pending ch) ∧
      (∃ s3, Broadcaster.Unsubscribe (Broadcaster.Subscribe s).1 (Broadcaster.Subscribe s).2
          = some s3 ∧ s3.registered = s.registered) := by
  obtain ⟨c, hc, _, hu⟩ := unsubscribe_spec hs.inv hch
  obtain ⟨s1, h1, hi1, hreg1⟩ := hs.inv.unsubscribe hch
  have hout1 : ch ∉ s1.registered := by
    rw [hreg1, List.mem_filter]
    simp
  have hlt : ch < s.chans.length := hs.inv.lt_length hch
  have hchan1 : s1.chans[ch]? = some { c with closed := true } := by
    rw [hu] at h1
    cases h1
    exact List.getElem?_set_self hlt
  have hlt1 : ch < s1.chans.length := (List.getElem?_eq_some.mp hchan1).1
  have hpend1 : s1.pending ch = s.pending ch := by
    simp [State.pending, hchan1, hc]
  refine ⟨s1, h1, hout1, ?_, subscribe_then_unsubscribe hs.inv⟩
  intro cs hadm
  obtain ⟨s2, h2, _, hout2, hg2⟩ := exec_keeps_disposed ch cs s1 hi1 hout1 hlt1 hadm
  refine ⟨s2, h2, hout2, hg2, ?_⟩
  rw [← hpend1]
  simp [State.pending, hg2]

theorem unsubscribe_disposes_witness :
    Reachable demoTwo ∧ 0 ∈ demoTwo.registered ∧
      ∃ s1, Broadcaster.Unsubscribe demoTwo 0 = some s1 ∧ 0 ∉ s1.registered ∧
        (∀ cs, Admissible s1 cs →
          ∃ s2, exec s1 cs = some s2 ∧ 0 ∉ s2.registered ∧
            s2.chans[0]? = s1.chans[0]? ∧ s2.pending 0 = demoTwo.pending 0) ∧
        (∃ s3, Broadcaster.Unsubscribe (Broadcaster.Subscribe demoTwo).1
              (Broadcaster.Subscribe demoTwo).2 = some s3 ∧
            s3.registered = demoTwo.registered) :=
  ⟨demoTwo_reachable, by decide, unsubscribe_disposes demoTwo demoTwo_reachable 0 (by decide)⟩

/-! ## Several sends in a row -/

theorem sendAll_spec (ms : List String) :
    ∀ s : State, Inv s →
      ∃ s', sendAll s ms = some s' ∧ Inv s' ∧ s'.registered = s.registered ∧
        ∀ ch ∈ s.registered, (s.pending ch).length + ms.length ≤ 10 →
          s'.pending ch = s.pending ch ++ ms := by
  induction ms with
  | nil => exact fun s h => ⟨s, rfl, h, rfl, fun ch _ _ => by simp⟩
  | cons m ms ih =>
    intro s h
    obtain ⟨s1, h1, hb1, hg1⟩ := send_spec h m
    have hi1 : Inv s1 := h.of_offer m s.registered hb1 hg1
    have hreg1 : s1.registered = s.registered := by simp [State.registered, hb1]
    obtain ⟨s2, h2, hi2, hreg2, hp2⟩ := ih s1 hi1
    refine ⟨s2, by simp [sendAll, h1, h2], hi2, hreg2.trans hreg1, ?_⟩
    intro ch hch hroom
    rw [List.length_cons] at hroom
    obtain ⟨c, hc, _⟩ := h.live ch hch
    have hc10 := (h.bound c (List.mem_iff_getElem?.mpr ⟨ch, hc⟩)).1
    have hp1 : s1.pending ch = s.pending ch ++ [m] :=
      pending_offer_room s s1 m ch c hc hc10 (by rw [hg1 ch, if_pos hch]) (by omega)
    have := hp2 ch (hreg1 ▸ hch) (by rw [hp1, List.length_append, List.length_singleton]; omega)
    rw [this, hp1, List.append_assoc]
    rfl

theorem spamLoop_eq_sendAll (marshal : Marshal) (is : List Nat) :
    ∀ s : State, spamLoop marshal s is
      = sendAll s (is.map (fun i =>
          marshal [("type", spamTypes.getD i ""), ("message", spamMessages.getD i "")])) := by
  induction is with
  | nil => exact fun s => rfl
  | cons i rest ih =>
    intro s
    simp only [spamLoop, sendAll, List.map_cons]
    cases Broadcaster.Send s
        (marshal [("type", spamTypes.getD i ""), ("message", spamMessages.getD i "")]) with
    | none => rfl
    | some s' => exact ih s'

/-- C6: in a reachable state, sending the messages `ms` one after the other, with nothing in
between, leaves every registered mailbox that had room for all of them with its previous
content followed by `ms`; and for two registered subscribers A and B with empty mailboxes,
`handleSpamToasts` on a POST leaves in both mailboxes the same five toasts, in the order of the
source. -/
theorem sends_in_order (s : State) (hs : Reachable s) :
    (∀ ms : List String,
      (∀ ch ∈ s.registered, (s.pending ch).length + ms.length ≤ 10) →
      ∃ s', sendAll s ms = some s' ∧ s'.registered = s.registered ∧
        ∀ ch ∈ s.registered, s'.pending ch = s.pending ch ++ ms) ∧
    (∀ (marshal : Marshal) (w : ResponseWriter) (r : Request) (A B : ChanId),
      r.method = "POST" → A ∈ s.registered → B ∈ s.registered → A ≠ B →
      s.pending A = [] → s.pending B = [] →
      ∃ s' w', handleSpamToasts marshal s w r = some (s', w') ∧
        s'.pending A =
          [marshal [("type", "success"), ("message", "First toast incoming!")],
           marshal [("type", "error"), ("message", "Oops, an error appeared!")],
           marshal [("type", "info"), ("message", "Here\x27s some info for you.")],
           marshal [("type", "warning"), ("message", "Warning: toast spam detected!")],
           marshal [("type", "success"), ("message", "And we\x27re done!")]] ∧
        s'.pending B = s'.pending A) := by
  constructor
  · intro ms hroom
    obtain ⟨s', h1, _, hreg, hp⟩ := sendAll_spec ms s hs.inv
    exact ⟨s', h1, hreg, fun ch hch => hp ch hch (hroom ch hch)⟩
  · intro marshal w r A B hpost hA hB _ hAe hBe
    obtain ⟨s', h1, _, _, hp⟩ := sendAll_spec
      ((List.range 5).map (fun i =>
        marshal [("type", spamTypes.getD i ""), ("message", spamMessages.getD i "")])) s hs.inv
    have hpA := hp A hA (by rw [hAe]; simp)
    have hpB := hp B hB (by rw [hBe]; simp)
    rw [hAe, List.nil_append] at hpA
    rw [hBe, List.nil_append] at hpB
    refine ⟨s', w.writeHeader 200, ?_, ?_, hpB.trans hpA.symm⟩
    · unfold handleSpamToasts
      rw [if_neg (fun hne => hne hpost), spamLoop_eq_sendAll, h1]
    · rw [hpA]
      rfl

theorem sends_in_order_witness :
    Reachable demoAB ∧
      (∃ s', sendAll demoAB ["x", "y", "z"] = some s' ∧ s'.registered = demoAB.registered ∧
        ∀ ch ∈ demoAB.registered, s'.pending ch = demoAB.pending ch ++ ["x", "y", "z"]) ∧
      (∃ s' w', handleSpamToasts (fun kv => String.join (kv.map Prod.snd)) demoAB
            (ResponseWriter.fresh true) { method := "POST", form := [] } = some (s', w') ∧
        s'.pending 0 = ["successFirst toast incoming!", "errorOops, an error appeared!",
          "infoHere\x27s some info for you.", "warningWarning: toast spam detected!",
          "successAnd we\x27re done!"] ∧
        s'.pending 1 = s'.pending 0) :=
  have hreach : Reachable demoAB := ⟨[.subscribe, .subscribe], by decide, by decide⟩
  ⟨hreach, (sends_in_order demoAB hreach).1 ["x", "y", "z"] (by decide),
    (sends_in_order demoAB hreach).2 (fun kv => String.join (kv.map Prod.snd))
      (ResponseWriter.fresh true) { method := "POST", form := [] } 0 1 rfl (by decide)
      (by decide) (by decide) rfl rfl⟩

/-! ## The streaming handler -/

theorem join_append (a b : List String) : String.join (a ++ b) = String.join a ++ String.join b := by
  apply String.ext
  simp [String.data_join, String.data_append]

theorem join_cons (a : String) (b : List String) : String.join (a :: b) = a ++ String.join b := by
  apply String.ext
  simp [String.data_join, String.data_append]

theorem wrote_write_flush (w : ResponseWriter) (bytes : String) :
    (w.write bytes).flush.wrote = w.wrote ++ [bytes] ∧
      (w.write bytes).flush.flushed = (w.write bytes).flush.wrote.length ∧
      (w.write bytes).flush.flusher = w.flusher := by
  cases w with
  | mk f h st wr fl =>
    cases st <;> simp [ResponseWriter.flush, ResponseWriter.write, ResponseWriter.writeHeader]

/-- What the loop writes: one toast frame for each message it takes, in that order, each
flushed at once. -/
theorem sseLoop_wrote (ch : ChanId) (pre : List String) (es : List Event) :
    ∀ σ σ' : Session, sseLoop ch σ es = some σ' →
      σ.w.wrote = pre ++ σ.taken.map toastFrame → σ.w.flushed = σ.w.wrote.length →
      σ'.w.wrote = pre ++ σ'.taken.map toastFrame ∧ σ'.w.flushed = σ'.w.wrote.length := by
  induction es with
  | nil =>
    intro σ σ' h hw hf
    simp only [sseLoop, Option.some.injEq] at h
    subst h
    exact ⟨hw, hf⟩
  | cons e es ih =>
    intro σ σ' h hw hf
    cases e with
    | env c =>
      simp only [sseLoop] at h
      cases hc : call σ.state c with
      | none => simp [hc] at h
      | some s1 =>
        rw [hc] at h
        exact ih _ σ' h hw hf
    | ctxDone =>
      simp only [sseLoop] at h
      cases hu : Broadcaster.Unsubscribe σ.state ch with
      | none => simp [hu] at h
      | some s1 =>
        simp only [hu, Option.some.injEq] at h
        subst h
        exact ⟨hw, hf⟩
    | msgReady =>
      simp only [sseLoop] at h
      cases hr : chanRecv σ.state ch with
      | none =>
        rw [hr] at h
        exact ih σ σ' h hw hf
      | some r =>
        rw [hr] at h
        obtain ⟨h1, h2, _⟩ := wrote_write_flush σ.w (toastFrame r.1)
        refine ih _ σ' h ?_ h2
        simp only [h1, hw, List.map_append, List.map_cons, List.map_nil, List.append_assoc]

theorem call_registered {s s' : State} (h : Inv s) (c : Call) (hc : c.allowed s)
    (hs' : call s c = some s') {ch : ChanId} (hch : ch ∈ s.registered)
    (hne : c ≠ .unsubscribe ch) : ch ∈ s'.registered := by
  cases c with
  | subscribe =>
    simp only [call, Option.some.injEq] at hs'
    rw [← hs', registered_subscribe h]
    exact List.mem_append_left _ hch
  | unsubscribe x =>
    obtain ⟨s1, h1, _, hreg⟩ := h.unsubscribe hc
    have : s1 = s' := by
      simp only [call] at hs'
      rw [h1] at hs'
      exact Option.some.inj hs'
    subst this
    rw [hreg, List.mem_filter]
    refine ⟨hch, ?_⟩
    have : ch ≠ x := fun e => hne (by rw [e])
    simpa using this
  | send msg =>
    obtain ⟨s1, h1, _, hreg⟩ := h.send msg
    have : s1 = s' := by
      simp only [call] at hs'
      rw [h1] at hs'
      exact Option.some.inj hs'
    subst this
    rw [hreg]
    exact hch
  | recv x =>
    cases hr : chanRecv s x with
    | none =>
      simp only [call, hr, Option.some.injEq] at hs'
      rw [← hs']
      exact hch
    | some r =>
      simp only [call, hr, Option.some.injEq] at hs'
      rw [← hs', (h.recv x r.1 r.2 hr).2]
      exact hch
  | deliver x msg =>
    obtain ⟨s1, h1, _, hreg, _⟩ := deliver_spec h hc msg
    have : s1 = s' := by
      simp only [call] at hs'
      rw [h1] at hs'
      exact Option.some.inj hs'
    subst this
    rw [hreg]
    exact hch

/-- The loop never panics under an admissible environment; it returns exactly when the
cancellation case is taken, and then its deferred `Unsubscribe` has run once. -/
theorem sseLoop_total (ch : ChanId) (es : List Event) :
    ∀ σ : Session, Inv σ.state → ch ∈ σ.state.registered → EnvAdmissible ch σ.state es →
      ∃ σ', sseLoop ch σ es = some σ' ∧ Inv σ'.state ∧
        (Event.ctxDone ∈ es → σ'.pc = .returned ∧ σ'.log = σ.log ++ [.unsubscribe ch] ∧
          ch ∉ σ'.state.registered) ∧
        (Event.ctxDone ∉ es → σ'.pc = σ.pc ∧ σ'.log = σ.log ∧ ch ∈ σ'.state.registered) := by
  induction es with
  | nil =>
    intro σ hi hch _
    exact ⟨σ, rfl, hi, fun h => absurd h (List.not_mem_nil _), fun _ => ⟨rfl, rfl, hch⟩⟩
  | cons e es ih =>
    intro σ hi hch henv
    cases e with
    | env c =>
      obtain ⟨hc, hne, _, hrest⟩ := henv
      obtain ⟨s1, h1, hi1⟩ := call_total hi c hc
      rw [h1] at hrest
      have hch1 := call_registered hi c hc h1 hch hne
      obtain ⟨σ', h', hi', hd, hn⟩ := ih { σ with state := s1 } hi1 hch1 hrest
      refine ⟨σ', by simp [sseLoop, h1, h'], hi', ?_, ?_⟩
      · intro hmem
        exact hd (by simpa using hmem)
      · intro hmem
        exact hn (by simpa using hmem)
    | ctxDone =>
      obtain ⟨s1, h1, hi1, hreg1⟩ := hi.unsubscribe hch
      refine ⟨{ σ with state := s1, pc := .returned, log := σ.log ++ [.unsubscribe ch] },
        by simp [sseLoop, h1], hi1, ?_, ?_⟩
      · intro _
        refine ⟨rfl, rfl, ?_⟩
        show ch ∉ s1.registered
        rw [hreg1, List.mem_filter]
        simp
      · intro hmem
        exact absurd (List.mem_cons_self _ _) hmem
    | msgReady =>
      cases hr : chanRecv σ.state ch with
      | none =>
        have hrest : EnvAdmissible ch σ.state es := by
          simpa [EnvAdmissible, hr] using henv
        obtain ⟨σ', h', hi', hd, hn⟩ := ih σ hi hch hrest
        refine ⟨σ', by simp [sseLoop, hr, h'], hi', ?_, ?_⟩
        · intro hmem
          exact hd (by simpa using hmem)
        · intro hmem
          exact hn (by simpa using hmem)
      | some r =>
        have hrest : EnvAdmissible ch r.2 es := by
          simpa [EnvAdmissible, hr] using henv
        obtain ⟨hi1, hreg1⟩ := hi.recv ch r.1 r.2 hr
        obtain ⟨σ', h', hi', hd, hn⟩ := ih
          { σ with state := r.2, w := (σ.w.write (toastFrame r.1)).flush,
                   taken := σ.taken ++ [r.1] } hi1 (by rw [hreg1]; exact hch) hrest
        refine ⟨σ', by simp [sseLoop, hr, h'], hi', ?_, ?_⟩
        · intro hmem
          exact hd (by simpa using hmem)
        · intro hmem
          exact hn (by simpa using hmem)

theorem handleSSE_flusher (s : State) (w : ResponseWriter) (es : List Event)
    (hw : w.flusher = true) :
    handleSSE s w es
      = sseLoop (Broadcaster.Subscribe s).2
          { state := (Broadcaster.Subscribe s).1,
            w := (((((w.setHeader "Content-Type" "text/event-stream").setHeader
                    "Cache-Control" "no-cache").setHeader "Connection" "keep-alive").setHeader
                    "X-Accel-Buffering" "no").write connectedFrame).flush,
            pc := .waiting (Broadcaster.Subscribe s).2, taken := [], log := [.subscribe] } es := by
  unfold handleSSE
  simp [ResponseWriter.setHeader, hw]

theorem feedAndTake_run (ch : ChanId) (ms : List String) :
    ∀ σ : Session, Inv σ.state → ch ∈ σ.state.registered → σ.state.pending ch = [] →
      EnvAdmissible ch σ.state (feedAndTake ms) ∧
        ∃ σ', sseLoop ch σ (feedAndTake ms) = some σ' ∧ σ'.taken = σ.taken ++ ms := by
  induction ms with
  | nil => exact fun σ _ _ _ => ⟨trivial, σ, rfl, by simp⟩
  | cons m ms ih =>
    intro σ hi hch hempty
    obtain ⟨c, hc, ho⟩ := hi.live ch hch
    have hc10 := (hi.bound c (List.mem_iff_getElem?.mpr ⟨ch, hc⟩)).1
    have hbuf : c.buf = [] := by simpa [State.pending, hc] using hempty
    obtain ⟨s1, h1, hb1, hg1⟩ := send_spec hi m
    have hi1 : Inv s1 := hi.of_offer m σ.state.registered hb1 hg1
    have hreg1 : s1.registered = σ.state.registered := by simp [State.registered, hb1]
    have hlt : ch < s1.chans.length := hi1.lt_length (hreg1 ▸ hch)
    have hc1 : s1.chans[ch]? = some { c with buf := [m] } := by
      rw [hg1 ch, if_pos hch, hc]
      simp [offer, hbuf, hc10]
    have hr : chanRecv s1 ch
        = some (m, { s1 with chans := s1.chans.set ch { c with buf := [] } }) := by
      simp [chanRecv, hc1]
    obtain ⟨hi2, hreg2⟩ := hi1.recv ch m _ hr
    have hempty2 : ({ s1 with chans := s1.chans.set ch { c with buf := [] } } : State).pending ch
        = [] := by
      simp [State.pending, hlt]
    obtain ⟨hadm, σ', h', ht⟩ := ih
      { σ with state := { s1 with chans := s1.chans.set ch { c with buf := [] } },
               w := (σ.w.write (toastFrame m)).flush, taken := σ.taken ++ [m] }
      hi2 (by rw [hreg2, hreg1]; exact hch) hempty2
    have hcall : call σ.state (.send m) = some s1 := h1
    constructor
    · show EnvAdmissible ch σ.state (.env (.send m) :: .msgReady :: feedAndTake ms)
      simp only [EnvAdmissible, hcall, hr]
      exact ⟨trivial, by simp, by simp, hadm⟩
    · refine ⟨σ', ?_, by rw [ht]; simp⟩
      show sseLoop ch σ (.env (.send m) :: .msgReady :: feedAndTake ms) = some σ'
      simp only [sseLoop, hcall, hr]
      exact h'

/-- C7: on a flush-capable connection, under any admissible environment, `handleSSE` runs
without a panic, and the chunks it has written are the connected frame followed by one
`sse-toast` frame for each message it has taken from its mailbox, in the order taken; so the
bytes are the connected frame followed by the concatenation of those frames, all of them
flushed. Every sequence of messages is taken in some admissible run. -/
theorem sse_stream_bytes (s : State) (hs : Reachable s) (w : ResponseWriter)
    (hw : w.flusher = true) :
    (∀ es, EnvAdmissible (Broadcaster.Subscribe s).2 (Broadcaster.Subscribe s).1 es →
      ∃ σ, handleSSE s w es = some σ ∧
        σ.w.wrote = w.wrote ++ connectedFrame :: σ.taken.map toastFrame ∧
        σ.w.body = w.body ++ connectedFrame ++ String.join (σ.taken.map toastFrame) ∧
        σ.w.flushed = σ.w.wrote.length) ∧
    (∀ ms : List String, ∃ es σ,
      EnvAdmissible (Broadcaster.Subscribe s).2 (Broadcaster.Subscribe s).1 es ∧
        handleSSE s w es = some σ ∧ σ.taken = ms) := by
  have hmem : (Broadcaster.Subscribe s).2 ∈ (Broadcaster.Subscribe s).1.registered := by
    rw [registered_subscribe hs.inv]
    exact List.mem_append_right _ (List.mem_singleton_self _)
  constructor
  · intro es henv
    rw [handleSSE_flusher s w es hw]
    obtain ⟨σ, hσ, _, _, _⟩ := sseLoop_total (Broadcaster.Subscribe s).2 es
      { state := (Broadcaster.Subscribe s).1,
        w := (((((w.setHeader "Content-Type" "text/event-stream").setHeader
                "Cache-Control" "no-cache").setHeader "Connection" "keep-alive").setHeader
                "X-Accel-Buffering" "no").write connectedFrame).flush,
        pc := .waiting (Broadcaster.Subscribe s).2, taken := [], log := [.subscribe] }
      hs.inv.subscribe hmem henv
    obtain ⟨h1, h2, _⟩ := wrote_write_flush
      ((((w.setHeader "Content-Type" "text/event-stream").setHeader
        "Cache-Control" "no-cache").setHeader "Connection" "keep-alive").setHeader
        "X-Accel-Buffering" "no") connectedFrame
    obtain ⟨hwr, hflush⟩ := sseLoop_wrote (Broadcaster.Subscribe s).2 (w.wrote ++ [connectedFrame])
      es _ σ hσ (by simpa [ResponseWriter.setHeader] using h1) h2
    have hwr' : σ.w.wrote = w.wrote ++ connectedFrame :: σ.taken.map toastFrame := by
      rw [hwr, List.append_assoc]
      rfl
    refine ⟨σ, hσ, hwr', ?_, hflush⟩
    unfold ResponseWriter.body
    rw [hwr', join_append, join_cons, String.append_assoc]
  · intro ms
    have hempty : (Broadcaster.Subscribe s).1.pending (Broadcaster.Subscribe s).2 = [] := by
      simp [State.pending, Broadcaster.Subscribe, makeChan]
    obtain ⟨hadm, σ', h', ht⟩ := feedAndTake_run (Broadcaster.Subscribe s).2 ms
      { state := (Broadcaster.Subscribe s).1,
        w := (((((w.setHeader "Content-Type" "text/event-stream").setHeader
                "Cache-Control" "no-cache").setHeader "Connection" "keep-alive").setHeader
                "X-Accel-Buffering" "no").write connectedFrame).flush,
        pc := .waiting (Broadcaster.Subscribe s).2, taken := [], log := [.subscribe] }
      hs.inv.subscribe hmem hempty
    exact ⟨feedAndTake ms, σ', hadm, by rw [handleSSE_flusher s w _ hw]; exact h', by simpa using ht⟩

theorem sse_stream_bytes_witness :
    Reachable State.init ∧ (ResponseWriter.fresh true).flusher = true ∧
      EnvAdmissible (Broadcaster.Subscribe State.init).2 (Broadcaster.Subscribe State.init).1
        [.env (.send "a"), .msgReady, .env (.send "b"), .msgReady, .ctxDone] ∧
      (∃ σ, handleSSE State.init (ResponseWriter.fresh true)
            [.env (.send "a"), .msgReady, .env (.send "b"), .msgReady, .ctxDone] = some σ ∧
        σ.w.wrote = (ResponseWriter.fresh true).wrote
          ++ connectedFrame :: σ.taken.map toastFrame ∧
        σ.w.body = (ResponseWriter.fresh true).body ++ connectedFrame
          ++ String.join (σ.taken.map toastFrame) ∧
        σ.w.flushed = σ.w.wrote.length) ∧
      (∃ es σ,
        EnvAdmissible (Broadcaster.Subscribe State.init).2 (Broadcaster.Subscribe State.init).1 es ∧
          handleSSE State.init (ResponseWriter.fresh true) es = some σ ∧ σ.taken = ["a", "b"]) :=
  have hreach : Reachable State.init := ⟨[], trivial, rfl⟩
  ⟨hreach, rfl, by decide,
    (sse_stream_bytes State.init hreach (ResponseWriter.fresh true) rfl).1
      [.env (.send "a"), .msgReady, .env (.send "b"), .msgReady, .ctxDone] (by decide),
    (sse_stream_bytes State.init hreach (ResponseWriter.fresh true) rfl).2 ["a", "b"]⟩

theorem httpError_wrote (w : ResponseWriter) (msg : String) (code : Nat) :
    (httpError w msg code).wrote = w.wrote ++ [msg ++ "\n"] ∧
      (w.status = none → (httpError w msg code).status = some code) := by
  cases w with
  | mk f h st wr fl =>
    cases st <;>
      simp [httpError, ResponseWriter.setHeader, ResponseWriter.write,
        ResponseWriter.writeHeader]

theorem handleSSE_no_flusher (s : State) (w : ResponseWriter) (es : List Event)
    (hw : w.flusher = false) :
    handleSSE s w es
      = some { state := s,
               w := httpError ((((w.setHeader "Content-Type" "text/event-stream").setHeader
                      "Cache-Control" "no-cache").setHeader "Connection" "keep-alive").setHeader
                      "X-Accel-Buffering" "no") "SSE not supported" 500,
               pc := .returned, taken := [], log := [] } := by
  unfold handleSSE
  simp [ResponseWriter.setHeader, hw]

/-- C9: on a writer without `http.Flusher`, `handleSSE` returns at once with the whole state as
it was, having made no call on the broadcaster and taken no message, and the only thing written
is the error text, with status 500 on a response that had no status yet. On a writer with
`http.Flusher`, in a reachable state and under an admissible environment, the handler does not
panic, its `Subscribe` returns a channel that was not registered, and its calls on the
broadcaster are that one `Subscribe` while it waits, and that `Subscribe` followed by one
`Unsubscribe` of the same channel once it has returned, which it does exactly when the
cancellation case is taken. -/
theorem sse_flusher_gate (s : State) (w : ResponseWriter) (es : List Event) :
    (w.flusher = false →
      ∃ σ, handleSSE s w es = some σ ∧ σ.state = s ∧ σ.pc = .returned ∧ σ.log = [] ∧
        σ.taken = [] ∧ σ.w.wrote = w.wrote ++ ["SSE not supported\n"] ∧
        (w.status = none → σ.w.status = some 500)) ∧
    (w.flusher = true → Reachable s →
      EnvAdmissible (Broadcaster.Subscribe s).2 (Broadcaster.Subscribe s).1 es →
      ∃ σ, handleSSE s w es = some σ ∧ (Broadcaster.Subscribe s).2 ∉ s.registered ∧
        (Event.ctxDone ∉ es →
          σ.pc = .waiting (Broadcaster.Subscribe s).2 ∧ σ.log = [.subscribe] ∧
            (Broadcaster.Subscribe s).2 ∈ σ.state.registered) ∧
        (Event.ctxDone ∈ es →
          σ.pc = .returned ∧
            σ.log = [.subscribe, .unsubscribe (Broadcaster.Subscribe s).2] ∧
            (Broadcaster.Subscribe s).2 ∉ σ.state.registered)) := by
  constructor
  · intro hw
    obtain ⟨h1, h2⟩ := httpError_wrote
      ((((w.setHeader "Content-Type" "text/event-stream").setHeader
        "Cache-Control" "no-cache").setHeader "Connection" "keep-alive").setHeader
        "X-Accel-Buffering" "no") "SSE not supported" 500
    refine ⟨_, handleSSE_no_flusher s w es hw, rfl, rfl, rfl, rfl, ?_, ?_⟩
    · simpa [ResponseWriter.setHeader] using h1
    · intro hst
      exact h2 (by simpa [ResponseWriter.setHeader] using hst)
  · intro hw hs henv
    have hmem : (Broadcaster.Subscribe s).2 ∈ (Broadcaster.Subscribe s).1.registered := by
      rw [registered_subscribe hs.inv]
      exact List.mem_append_right _ (List.mem_singleton_self _)
    obtain ⟨σ, hσ, _, hd, hn⟩ := sseLoop_total (Broadcaster.Subscribe s).2 es
      { state := (Broadcaster.Subscribe s).1,
        w := (((((w.setHeader "Content-Type" "text/event-stream").setHeader
                "Cache-Control" "no-cache").setHeader "Connection" "keep-alive").setHeader
                "X-Accel-Buffering" "no").write connectedFrame).flush,
        pc := .waiting (Broadcaster.Subscribe s).2, taken := [], log := [.subscribe] }
      hs.inv.subscribe hmem henv
    exact ⟨σ, by rw [handleSSE_flusher s w es hw]; exact hσ, hs.inv.fresh, hn, hd⟩

theorem sse_flusher_gate_witness :
    (∃ σ, handleSSE demoTwo (ResponseWriter.fresh false) [.env (.send "a"), .msgReady] = some σ ∧
        σ.state = demoTwo ∧ σ.pc = .returned ∧ σ.log = [] ∧ σ.taken = [] ∧
        σ.w.wrote = (ResponseWriter.fresh false).wrote ++ ["SSE not supported\n"] ∧
        ((ResponseWriter.fresh false).status = none → σ.w.status = some 500)) ∧
    (∃ σ, handleSSE demoTwo (ResponseWriter.fresh true) [.env (.send "a"), .msgReady, .ctxDone]
          = some σ ∧
        (Broadcaster.Subscribe demoTwo).2 ∉ demoTwo.registered ∧
        (Event.ctxDone ∉ [Event.env (.send "a"), .msgReady, .ctxDone] →
          σ.pc = .waiting (Broadcaster.Subscribe demoTwo).2 ∧ σ.log = [.subscribe] ∧
            (Broadcaster.Subscribe demoTwo).2 ∈ σ.state.registered) ∧
        (Event.ctxDone ∈ [Event.env (.send "a"), .msgReady, .ctxDone] →
          σ.pc = .returned ∧
            σ.log = [.subscribe, .unsubscribe (Broadcaster.Subscribe demoTwo).2] ∧
            (Broadcaster.Subscribe demoTwo).2 ∉ σ.state.registered)) :=
  ⟨(sse_flusher_gate demoTwo (ResponseWriter.fresh false) [.env (.send "a"), .msgReady]).1 rfl,
    (sse_flusher_gate demoTwo (ResponseWriter.fresh true)
      [.env (.send "a"), .msgReady, .ctxDone]).2 rfl demoTwo_reachable (by decide)⟩

/-! ## `handleTriggerToast` -/

theorem trigger_lookup (k : String) :
    mapGet [("success", "Operation completed successfully!"),
            ("error", "Something went wrong!"),
            ("info", "Here\x27s some information for you."),
            ("warning", "Please be careful with this action.")] k
      = if k = "success" then "Operation completed successfully!"
        else if k = "error" then "Something went wrong!"
        else if k = "info" then "Here\x27s some information for you."
        else if k = "warning" then "Please be careful with this action."
        else "" := by
  by_cases h1 : k = "success"
  · subst h1
    rfl
  by_cases h2 : k = "error"
  · subst h2
    rfl
  by_cases h3 : k = "info"
  · subst h3
    rfl
  by_cases h4 : k = "warning"
  · subst h4
    rfl
  have e1 : ¬ "success" = k := fun e => h1 e.symm
  have e2 : ¬ "error" = k := fun e => h2 e.symm
  have e3 : ¬ "info" = k := fun e => h3 e.symm
  have e4 : ¬ "warning" = k := fun e => h4 e.symm
  simp [mapGet, List.find?, h1, h2, h3, h4, e1, e2, e3, e4]

/-- C10: on a POST, in a reachable state, `handleTriggerToast` publishes exactly one toast: the
state it leaves is the one a single `Send` of the encoded toast leaves. The `type` field of the
toast is the form value, or `success` when the form value is empty; the `message` field is the
text of the table for `success`, `error`, `info` and `warning`, and the `info` text for every
other type. On another method the state is unchanged and the response is the 405 error. -/
theorem trigger_toast_publishes (marshal : Marshal) (s : State) (hs : Reachable s)
    (w : ResponseWriter) (r : Request) :
    (r.method = "POST" →
      ∃ ty text s',
        ty = (if r.formValue "type" = "" then "success" else r.formValue "type") ∧
        (ty = "success" → text = "Operation completed successfully!") ∧
        (ty = "error" → text = "Something went wrong!") ∧
        (ty = "info" → text = "Here\x27s some information for you.") ∧
        (ty = "warning" → text = "Please be careful with this action.") ∧
        (ty ≠ "success" → ty ≠ "error" → ty ≠ "info" → ty ≠ "warning" →
          text = "Here\x27s some information for you.") ∧
        Broadcaster.Send s (marshal [("type", ty), ("message", text)]) = some s' ∧
        handleTriggerToast marshal s w r = some (s', w.writeHeader 200)) ∧
    (r.method ≠ "POST" →
      handleTriggerToast marshal s w r = some (s, httpError w "Method not allowed" 405)) := by
  constructor
  · intro hpost
    generalize hty : (if r.formValue "type" = "" then "success" else r.formValue "type") = ty
    generalize htext :
      (if ty = "success" then "Operation completed successfully!"
        else if ty = "error" then "Something went wrong!"
        else if ty = "info" then "Here\x27s some information for you."
        else if ty = "warning" then "Please be careful with this action."
        else "Here\x27s some information for you.") = text
    obtain ⟨s', hsend, _, _⟩ := hs.inv.send (marshal [("type", ty), ("message", text)])
    have hcode : handleTriggerToast marshal s w r
        = match Broadcaster.Send s (marshal [("type", ty), ("message", text)]) with
          | none => none
          | some s' => some (s', w.writeHeader 200) := by
      have hmsg :
          (if mapGet [("success", "Operation completed successfully!"),
                      ("error", "Something went wrong!"),
                      ("info", "Here\x27s some information for you."),
                      ("warning", "Please be careful with this action.")] ty = ""
            then mapGet [("success", "Operation completed successfully!"),
                      ("error", "Something went wrong!"),
                      ("info", "Here\x27s some information for you."),
                      ("warning", "Please be careful with this action.")] "info"
            else mapGet [("success", "Operation completed successfully!"),
                      ("error", "Something went wrong!"),
                      ("info", "Here\x27s some information for you."),
                      ("warning", "Please be careful with this action.")] ty) = text := by
        rw [← htext]
        by_cases h1 : ty = "success"
        · subst h1
          decide
        by_cases h2 : ty = "error"
        · subst h2
          decide
        by_cases h3 : ty = "info"
        · subst h3
          decide
        by_cases h4 : ty = "warning"
        · subst h4
          decide
        rw [trigger_lookup ty, if_neg h1, if_neg h2, if_neg h3, if_neg h4, if_pos rfl,
          if_neg h1, if_neg h2, if_neg h3, if_neg h4]
        decide
      unfold handleTriggerToast
      rw [if_neg (fun hne => hne hpost)]
      dsimp only
      rw [hty, hmsg]
    refine ⟨ty, text, s', rfl, ?_, ?_, ?_, ?_, ?_, hsend, by rw [hcode, hsend]⟩
    · intro h
      rw [← htext, if_pos h]
    · intro h
      subst h
      rw [← htext]
      decide
    · intro h
      subst h
      rw [← htext]
      decide
    · intro h
      subst h
      rw [← htext]
      decide
    · intro h1 h2 h3 h4
      rw [← htext, if_neg h1, if_neg h2, if_neg h3, if_neg h4]
  · intro hne
    unfold handleTriggerToast
    rw [if_pos hne]

theorem trigger_toast_publishes_witness :
    Reachable demoTwo ∧
      (("POST" : String) = "POST" →
        ∃ ty text s',
          ty = (if ("bogus" : String) = "" then "success" else "bogus") ∧
          (ty = "success" → text = "Operation completed successfully!") ∧
          (ty = "error" → text = "Something went wrong!") ∧
          (ty = "info" → text = "Here\x27s some information for you.") ∧
          (ty = "warning" → text = "Please be careful with this action.") ∧
          (ty ≠ "success" → ty ≠ "error" → ty ≠ "info" → ty ≠ "warning" →
            text = "Here\x27s some information for you.") ∧
          Broadcaster.Send demoTwo
            ((fun kv => String.join (kv.map Prod.snd)) [("type", ty), ("message", text)])
              = some s' ∧
          handleTriggerToast (fun kv => String.join (kv.map Prod.snd)) demoTwo
            (ResponseWriter.fresh true) { method := "POST", form := [("type", "bogus")] }
              = some (s', (ResponseWriter.fresh true).writeHeader 200)) :=
  ⟨demoTwo_reachable,
    (trigger_toast_publishes (fun kv => String.join (kv.map Prod.snd)) demoTwo demoTwo_reachable
      (ResponseWriter.fresh true) { method := "POST", form := [("type", "bogus")] }).1⟩

/-! ## Reading a toast frame back -/

theorem feed_plain (l : List Char) :
    ∀ d : Decoder, d.afterCR = false → '\n' ∉ l → '\r' ∉ l →
      l.foldl Decoder.feed d = { d with line := d.line ++ l } := by
  induction l with
  | nil =>
    intro d _ _ _
    simp
  | cons c l ih =>
    intro d hd hlf hcr
    have hc1 : c ≠ '\n' := fun e => hlf (e ▸ List.mem_cons_self _ _)
    have hc2 : c ≠ '\r' := fun e => hcr (e ▸ List.mem_cons_self _ _)
    have hstep : d.feed c = { d with line := d.line ++ [c], afterCR := false } := by
      simp [Decoder.feed, hc1, hc2]
    rw [List.foldl_cons, hstep,
      ih _ rfl (fun h => hlf (List.mem_cons_of_mem _ h)) (fun h => hcr (List.mem_cons_of_mem _ h))]
    simp [hd]

theorem toastFrame_data (msg : String) :
    (toastFrame msg).data
      = "event: sse-toast\n".data ++ ("data: ".data ++ msg.data) ++ ['\n', '\n'] := by
  simp [toastFrame, String.data_append]

theorem decode_event_line :
    "event: sse-toast\n".data.foldl Decoder.feed Decoder.start
      = { Decoder.start with event := "sse-toast".data } := by
  decide

theorem decode_data_line (msg : List Char) (d : Decoder) (hd : d.data = []) :
    ({ d with line := "data: ".data ++ msg } : Decoder).endLine
      = { d with line := [], data := msg ++ ['\n'] } := by
  have hlit : "data: ".data = ['d', 'a', 't', 'a', ':', ' '] := rfl
  simp [hlit, Decoder.endLine, Decoder.field, List.dropWhile, List.takeWhile, hd]

/-- C8, as amended: for every message without a line feed and without a carriage return, the
frame `handleSSE` writes for it reads back, by the rules of the event-stream format, as exactly
one event, of kind `sse-toast`, whose data is the message. -/
theorem toast_frame_decodes (msg : String) (hlf : '\n' ∉ msg.data) (hcr : '\r' ∉ msg.data) :
    decodeEvents (toastFrame msg) = [("sse-toast", msg)] := by
  have hplain1 : '\n' ∉ "data: ".data ++ msg.data := by
    rw [List.mem_append]
    rintro (h | h)
    · revert h
      decide
    · exact hlf h
  have hplain2 : '\r' ∉ "data: ".data ++ msg.data := by
    rw [List.mem_append]
    rintro (h | h)
    · revert h
      decide
    · exact hcr h
  unfold decodeEvents
  rw [toastFrame_data, List.foldl_append, List.foldl_append, decode_event_line,
    feed_plain _ _ rfl hplain1 hplain2]
  simp only [List.foldl_cons, List.foldl_nil]
  have hstart : (Decoder.start).line = [] := rfl
  have h1 : Decoder.feed
      { Decoder.start with event := "sse-toast".data, line := [] ++ ("data: ".data ++ msg.data) }
      '\n'
      = { Decoder.start with event := "sse-toast".data, data := msg.data ++ ['\n'] } := by
    have := decode_data_line msg.data { Decoder.start with event := "sse-toast".data } rfl
    simp only [Decoder.feed, List.nil_append]
    simpa using this
  simp only [hstart] at h1 ⊢
  rw [h1]
  simp [Decoder.feed, Decoder.endLine, Decoder.dispatch, Decoder.start]

/-- C8, as stated, fails: a message with a line break does not read back as itself. -/
theorem toast_frame_line_break :
    decodeEvents (toastFrame "a\nb") = [("sse-toast", "a")] ∧
      decodeEvents (toastFrame "a\nb") ≠ [("sse-toast", "a\nb")] ∧
      decodeEvents (toastFrame "a\rb") ≠ [("sse-toast", "a\rb")] := by
  decide

theorem toast_frame_decodes_witness :
    '\n' ∉ "\x7b\"type\":\"info\"\x7d".data ∧ '\r' ∉ "\x7b\"type\":\"info\"\x7d".data ∧
      decodeEvents (toastFrame "\x7b\"type\":\"info\"\x7d")
        = [("sse-toast", "\x7b\"type\":\"info\"\x7d")] :=
  ⟨by decide, by decide, toast_frame_decodes "\x7b\"type\":\"info\"\x7d" (by decide) (by decide)⟩

/-! ## A message with a line break never reads back as itself -/

theorem field_bound (d : Decoder) (name value : List Char)
    (hd : d.data ≠ [] → d.data.getLast? = some '\n') :
    (d.field name value).out = d.out ∧ (d.field name value).line = d.line ∧
      (d.field name value).data.length ≤ d.data.length + value.length + 1 ∧
      ((d.field name value).data ≠ [] → (d.field name value).data.getLast? = some '\n') := by
  unfold Decoder.field
  split
  · exact ⟨rfl, rfl, by simp only []; omega, hd⟩
  · split
    · refine ⟨rfl, rfl, ?_, fun _ => ?_⟩
      · simp only [List.length_append, List.length_singleton]
        omega
      · simp
    · exact ⟨rfl, rfl, by omega, hd⟩

theorem endLine_bound (d : Decoder) (hout : d.out = [])
    (hd : d.data ≠ [] → d.data.getLast? = some '\n') :
    (d.endLine.out = [] ∧ d.endLine.data.length + d.endLine.line.length
          ≤ d.data.length + d.line.length ∧
        (d.endLine.data ≠ [] → d.endLine.data.getLast? = some '\n')) ∨
      (∃ e, d.endLine.out = [e] ∧ e.2.length + 1 ≤ d.data.length + d.line.length) := by
  unfold Decoder.endLine
  split
  · -- an empty line: dispatch
    unfold Decoder.dispatch
    by_cases hdata : d.data = []
    · left
      simp [hdata, hout]
    · right
      have hlast := hd hdata
      refine ⟨(String.mk (if d.event = [] then ['m', 'e', 's', 's', 'a', 'g', 'e'] else d.event),
        String.mk d.data.dropLast), by simp [hdata, hout, hlast], ?_⟩
      simp only [String.length, List.length_dropLast]
      have := List.length_pos.mpr hdata
      omega
  · -- a comment
    left
    exact ⟨hout, by simp, hd⟩
  · -- a field
    rename_i hne1 hne2
    have hd0 : ({ d with line := [] } : Decoder).data ≠ [] →
        ({ d with line := [] } : Decoder).data.getLast? = some '\n' := hd
    have hlen : (d.line.dropWhile (fun c => decide (c ≠ ':'))).length ≤ d.line.length :=
      (List.dropWhile_sublist _).length_le
    have hpos : 0 < d.line.length := by
      cases hl : d.line with
      | nil => exact absurd hl hne1
      | cons a l => simp
    split
    · obtain ⟨h1, h2, h3, h4⟩ := field_bound { d with line := [] } d.line [] hd0
      left
      refine ⟨h1.trans hout, ?_, h4⟩
      rw [h2]
      simp only [List.length_nil] at h3 ⊢
      omega
    · rename_i value hdrop
      obtain ⟨h1, h2, h3, h4⟩ := field_bound { d with line := [] }
        (d.line.takeWhile (fun c => decide (c ≠ ':'))) value hd0
      left
      refine ⟨h1.trans hout, ?_, h4⟩
      rw [h2]
      rw [hdrop] at hlen
      simp only [List.length_nil, List.length_cons] at h3 hlen ⊢
      omega
    · rename_i value _ hdrop
      obtain ⟨h1, h2, h3, h4⟩ := field_bound { d with line := [] }
        (d.line.takeWhile (fun c => decide (c ≠ ':'))) value hd0
      left
      refine ⟨h1.trans hout, ?_, h4⟩
      rw [h2]
      rw [hdrop] at hlen
      simp only [List.length_nil, List.length_cons] at h3 hlen ⊢
      omega

theorem field_out (d : Decoder) (name value : List Char) :
    (d.field name value).out = d.out := by
  unfold Decoder.field
  split
  · rfl
  · split <;> rfl

theorem endLine_out (d : Decoder) : ∃ more, d.endLine.out = d.out ++ more := by
  unfold Decoder.endLine
  split
  · by_cases hdata : d.data = []
    · exact ⟨[], by simp [Decoder.dispatch, hdata]⟩
    · exact ⟨[(String.mk (if d.event = [] then ['m', 'e', 's', 's', 'a', 'g', 'e'] else d.event),
        String.mk (if d.data.getLast? = some '\n' then d.data.dropLast else d.data))],
        by simp only [Decoder.dispatch, hdata, if_false]⟩
  · exact ⟨[], by simp⟩
  · split
    · exact ⟨[], by simp [field_out]⟩
    · exact ⟨[], by simp [field_out]⟩
    · exact ⟨[], by simp [field_out]⟩

theorem feed_out (d : Decoder) (c : Char) : ∃ more, (d.feed c).out = d.out ++ more := by
  unfold Decoder.feed
  split
  · split
    · exact ⟨[], by simp⟩
    · exact endLine_out d
  · split
    · exact endLine_out d
    · exact ⟨[], by simp⟩

theorem plainCount_cons (c : Char) (rest : List Char) :
    plainCount (c :: rest)
      = (if c ≠ '\n' ∧ c ≠ '\r' then 1 else 0) + plainCount rest := by
  unfold plainCount
  by_cases h : c ≠ '\n' ∧ c ≠ '\r'
  · rw [List.filter_cons_of_pos (by simpa using h), if_pos h, List.length_cons]
    omega
  · rw [List.filter_cons_of_neg (by simpa using h), if_neg h]
    omega

theorem feed_short (bound : Nat) (d : Decoder) (c : Char) (rest : List Char)
    (h : FirstEventShort bound d (c :: rest)) : FirstEventShort bound (d.feed c) rest := by
  cases hout : d.out with
  | cons e more =>
    obtain ⟨more', hmore⟩ := feed_out d c
    simp only [FirstEventShort, hout] at h
    simp only [FirstEventShort, hmore, hout, List.cons_append]
    exact h
  | nil =>
    simp only [FirstEventShort, hout] at h
    obtain ⟨hb, hd⟩ := h
    rw [plainCount_cons] at hb
    have hendline : d.data.length + d.line.length + plainCount rest ≤ bound →
        FirstEventShort bound d.endLine rest := by
      intro hb'
      rcases endLine_bound d hout hd with ⟨h1, h2, h3⟩ | ⟨e, h1, h2⟩
      · simp only [FirstEventShort, h1]
        exact ⟨by omega, h3⟩
      · simp only [FirstEventShort, h1]
        omega
    by_cases hlf : c = '\n'
    · subst hlf
      have hb' : d.data.length + d.line.length + plainCount rest ≤ bound := by
        simp only [ne_eq, not_true_eq_false, false_and, if_false] at hb
        omega
      by_cases hcr : d.afterCR = true
      · simp only [Decoder.feed, hcr, if_true, FirstEventShort, hout]
        exact ⟨hb', hd⟩
      · have : d.feed '\n' = d.endLine := by simp [Decoder.feed, hcr]
        rw [this]
        exact hendline hb'
    · by_cases hr : c = '\r'
      · subst hr
        have hb' : d.data.length + d.line.length + plainCount rest ≤ bound := by
          simp only [ne_eq, not_true_eq_false, and_false, if_false] at hb
          omega
        have hfeed : (d.feed '\r') = { d.endLine with afterCR := true } := by
          simp [Decoder.feed]
        have := hendline hb'
        rw [hfeed]
        unfold FirstEventShort at this ⊢
        exact this
      · have hfeed : d.feed c = { d with line := d.line ++ [c], afterCR := false } := by
          simp [Decoder.feed, hlf, hr]
        rw [hfeed]
        simp only [FirstEventShort, hout, List.length_append, List.length_singleton]
        rw [if_pos ⟨hlf, hr⟩] at hb
        exact ⟨by omega, hd⟩

theorem fold_short (bound : Nat) (rest : List Char) :
    ∀ d : Decoder, FirstEventShort bound d rest →
      FirstEventShort bound (rest.foldl Decoder.feed d) [] := by
  induction rest with
  | nil => exact fun d h => h
  | cons c rest ih => exact fun d h => ih (d.feed c) (feed_short bound d c rest h)

theorem split_at_break (l : List Char) (h : '\n' ∈ l ∨ '\r' ∈ l) :
    ∃ l1 c rest, l = l1 ++ c :: rest ∧ '\n' ∉ l1 ∧ '\r' ∉ l1 ∧ (c = '\n' ∨ c = '\r') := by
  induction l with
  | nil => simp at h
  | cons a l ih =>
    by_cases ha : a = '\n' ∨ a = '\r'
    · exact ⟨[], a, l, rfl, by simp, by simp, ha⟩
    · have ha1 : a ≠ '\n' := fun e => ha (Or.inl e)
      have ha2 : a ≠ '\r' := fun e => ha (Or.inr e)
      have h' : '\n' ∈ l ∨ '\r' ∈ l := by
        rcases h with h | h
        · exact Or.inl ((List.mem_cons.mp h).resolve_left (fun e => ha1 e.symm))
        · exact Or.inr ((List.mem_cons.mp h).resolve_left (fun e => ha2 e.symm))
      obtain ⟨l1, c, rest, hl, h1, h2, hc⟩ := ih h'
      refine ⟨a :: l1, c, rest, by rw [hl]; rfl, ?_, ?_, hc⟩
      · intro hm
        exact h1 ((List.mem_cons.mp hm).resolve_left (fun e => ha1 e.symm))
      · intro hm
        exact h2 ((List.mem_cons.mp hm).resolve_left (fun e => ha2 e.symm))

theorem plainCount_frame_end (rest : List Char) :
    plainCount (rest ++ ['\n', '\n']) ≤ rest.length := by
  unfold plainCount
  rw [List.filter_append]
  have : List.filter (fun c => decide (c ≠ '\n' ∧ c ≠ '\r')) ['\n', '\n'] = [] := by decide
  rw [this, List.append_nil]
  exact List.length_filter_le _ _

/-- The amendment of C8 is exact: the frame written for a message that contains a line feed or a
carriage return never reads back as one `sse-toast` event carrying that message. -/
theorem toast_frame_needs_one_line (msg : String) (h : '\n' ∈ msg.data ∨ '\r' ∈ msg.data) :
    decodeEvents (toastFrame msg) ≠ [("sse-toast", msg)] := by
  obtain ⟨l1, c, rest, hl, h1, h2, hc⟩ := split_at_break msg.data h
  have hframe : (toastFrame msg).data
      = "event: sse-toast\n".data ++ ("data: ".data ++ l1) ++ (c :: (rest ++ ['\n', '\n'])) := by
    rw [toastFrame_data, hl]
    simp
  have hplain1 : '\n' ∉ "data: ".data ++ l1 := by
    rw [List.mem_append]
    rintro (h | h)
    · revert h
      decide
    · exact h1 h
  have hplain2 : '\r' ∉ "data: ".data ++ l1 := by
    rw [List.mem_append]
    rintro (h | h)
    · revert h
      decide
    · exact h2 h
  have hline := decode_data_line l1 { Decoder.start with event := "sse-toast".data } rfl
  have hlen : msg.data.length = l1.length + 1 + rest.length := by
    rw [hl]
    simp only [List.length_append, List.length_cons]
    omega
  have hcount := plainCount_frame_end rest
  have hstep : FirstEventShort msg.data.length
      (Decoder.feed
        { Decoder.start with event := "sse-toast".data, line := [] ++ ("data: ".data ++ l1) } c)
      (rest ++ ['\n', '\n']) := by
    rw [List.nil_append]
    rcases hc with hc | hc
    · subst hc
      have hfeed : Decoder.feed
          { Decoder.start with event := "sse-toast".data, line := "data: ".data ++ l1 } '\n'
          = { Decoder.start with event := "sse-toast".data, line := [], data := l1 ++ ['\n'] } := by
        simp only [Decoder.feed]
        simpa [Decoder.start] using hline
      rw [hfeed]
      simp only [FirstEventShort, Decoder.start, List.length_append, List.length_singleton,
        List.length_nil]
      exact ⟨by omega, fun _ => by simp⟩
    · subst hc
      have hfeed : Decoder.feed
          { Decoder.start with event := "sse-toast".data, line := "data: ".data ++ l1 } '\r'
          = { Decoder.start with event := "sse-toast".data, line := [], data := l1 ++ ['\n'],
                                 afterCR := true } := by
        have hne : ('\r' : Char) ≠ '\n' := by decide
        simp only [Decoder.feed, if_neg hne, if_true]
        have := congrArg (fun d : Decoder => ({ d with afterCR := true } : Decoder)) hline
        simpa [Decoder.start] using this
      rw [hfeed]
      simp only [FirstEventShort, Decoder.start, List.length_append, List.length_singleton,
        List.length_nil]
      exact ⟨by omega, fun _ => by simp⟩
  have hfinal := fold_short msg.data.length (rest ++ ['\n', '\n']) _ hstep
  intro hEq
  unfold decodeEvents at hEq
  rw [hframe, List.foldl_append, List.foldl_append, decode_event_line,
    feed_plain _ _ rfl hplain1 hplain2, List.foldl_cons] at hEq
  have hstart : (Decoder.start).line = [] := rfl
  simp only [hstart] at hEq
  simp only [FirstEventShort, hEq, String.length] at hfinal
  exact Nat.lt_irrefl _ hfinal

/-! ## Reading the whole stream back -/

theorem decode_toast_frame (d : Decoder) (hline : d.line = []) (hafter : d.afterCR = false)
    (hdata : d.data = []) (hevent : d.event = []) (msg : String)
    (hlf : '\n' ∉ msg.data) (hcr : '\r' ∉ msg.data) :
    (toastFrame msg).data.foldl Decoder.feed d
      = { d with out := d.out ++ [("sse-toast", msg)] } := by
  have hev1 : '\n' ∉ "event: sse-toast".data := by decide
  have hev2 : '\r' ∉ "event: sse-toast".data := by decide
  have hplain1 : '\n' ∉ "data: ".data ++ msg.data := by
    rw [List.mem_append]
    rintro (h | h)
    · revert h
      decide
    · exact hlf h
  have hplain2 : '\r' ∉ "data: ".data ++ msg.data := by
    rw [List.mem_append]
    rintro (h | h)
    · revert h
      decide
    · exact hcr h
  have hframe : (toastFrame msg).data
      = "event: sse-toast".data ++ ('\n' :: (("data: ".data ++ msg.data) ++ ['\n', '\n'])) := by
    simp [toastFrame, String.data_append]
  have hlit : "event: sse-toast".data
      = ['e', 'v', 'e', 'n', 't', ':', ' ', 's', 's', 'e', '-', 't', 'o', 'a', 's', 't'] := rfl
  have hkind : "sse-toast".data = ['s', 's', 'e', '-', 't', 'o', 'a', 's', 't'] := rfl
  cases d with
  | mk line afterCR data event out =>
    simp only at hline hafter hdata hevent
    subst hline hafter hdata hevent
    have h1 : Decoder.feed
        { line := [] ++ "event: sse-toast".data, afterCR := false, data := [], event := [],
          out := out } '\n'
        = { line := [], afterCR := false, data := [], event := "sse-toast".data, out := out } := by
      simp [hlit, hkind, Decoder.feed, Decoder.endLine, Decoder.field, List.dropWhile,
        List.takeWhile]
    have h2 := decode_data_line msg.data
      { line := [], afterCR := false, data := [], event := "sse-toast".data, out := out } rfl
    have h3 : Decoder.feed
        { line := [] ++ ("data: ".data ++ msg.data), afterCR := false, data := [],
          event := "sse-toast".data, out := out } '\n'
        = { line := [], afterCR := false, data := msg.data ++ ['\n'],
            event := "sse-toast".data, out := out } := by
      simp only [Decoder.feed, List.nil_append]
      simpa using h2
    rw [hframe, List.foldl_append, feed_plain _ _ rfl hev1 hev2, List.foldl_cons, h1,
      List.foldl_append, feed_plain _ _ rfl hplain1 hplain2]
    simp only [List.foldl_cons, List.foldl_nil]
    rw [h3]
    simp [hkind, Decoder.feed, Decoder.endLine, Decoder.dispatch]

theorem decode_toast_frames (ms : List String)
    (hms : ∀ m ∈ ms, '\n' ∉ m.data ∧ '\r' ∉ m.data) :
    ∀ d : Decoder, d.line = [] → d.afterCR = false → d.data = [] → d.event = [] →
      (String.join (ms.map toastFrame)).data.foldl Decoder.feed d
        = { d with out := d.out ++ ms.map (fun m => ("sse-toast", m)) } := by
  induction ms with
  | nil =>
    intro d _ _ _ _
    simp [String.join]
  | cons m ms ih =>
    intro d hline hafter hdata hevent
    obtain ⟨hlf, hcr⟩ := hms m (List.mem_cons_self _ _)
    rw [List.map_cons, join_cons, String.data_append, List.foldl_append,
      decode_toast_frame d hline hafter hdata hevent m hlf hcr,
      ih (fun x hx => hms x (List.mem_cons_of_mem _ hx))
        { d with out := d.out ++ [("sse-toast", m)] } hline hafter hdata hevent]
    simp

/-- The stream a session writes, read back: when no message taken has a line break, the reader
gets one `connected` event and then one `sse-toast` event for each message, in order, each
carrying exactly its message. -/
theorem stream_decodes (ms : List String)
    (hms : ∀ m ∈ ms, '\n' ∉ m.data ∧ '\r' ∉ m.data) :
    decodeEvents (connectedFrame ++ String.join (ms.map toastFrame))
      = ("connected", "\x7b\"status\":\"connected\"\x7d")
          :: ms.map (fun m => ("sse-toast", m)) := by
  have hconn : connectedFrame.data.foldl Decoder.feed Decoder.start
      = { Decoder.start with out := [("connected", "\x7b\"status\":\"connected\"\x7d")] } := by
    decide
  unfold decodeEvents
  rw [String.data_append, List.foldl_append, hconn,
    decode_toast_frames ms hms _ rfl rfl rfl rfl]
  rfl

end GuideHtmx
